import Mathlib

/-!
# QtDTMF: tone generator and Goertzel detector of `MainWindow.cpp`

A shallow embedding of the signal-processing core of `MainWindow.cpp`.

Modelling conventions:
* C `double` values are real numbers and `double` arithmetic is exact
  (`sin`, `cos`, `sqrt` are the real functions, `M_PI` is `Real.pi`);
* C `int` values are unbounded integers; the conversion `double -> int`
  truncates toward zero and the store `int -> int16_t` wraps modulo `2^16`;
  the source's `int` has 32 bits, so the embedding agrees with it only while
  the values stay in `[-2^31, 2^31 - 1]`, and the statement on the sample
  value assumes `|volume| < 2^30`, which keeps them there;
* a quotient by a zero sample rate or a zero block size has no real value
  (IEEE arithmetic gives an infinity or a NaN there); the embedding writes the
  quotient as the source does, and the statements that depend on its value
  assume a non-zero divisor;
* the audio sink is an oracle: the successive answers of `bytesFree()` are a
  list of naturals, and the chunks handed to `write` are collected in a log.
-/

namespace QtDTMF

open Real

/-! ## Constants -/

/-- The constant `PI2 = M_PI * 2`. -/
noncomputable def PI2 : ℝ := Real.pi * 2

/-- The table `dtmf_fq[8]`. -/
def dtmf_fq : Fin 8 → ℤ := ![697, 770, 852, 941, 1209, 1336, 1477, 1633]

/-! ## Numeric conversions -/

/-- Conversion `double -> int`: the fractional part is discarded
(truncation toward zero). -/
noncomputable def truncToInt (x : ℝ) : ℤ := if 0 ≤ x then ⌊x⌋ else ⌈x⌉

/-- Conversion `int -> int16_t`: reduction modulo `2^16` into
`[-32768, 32767]`. -/
def toInt16 (v : ℤ) : ℤ := (v + 32768) % 65536 - 32768

/-! ## State -/

/-- The fields of `MainWindow::Private` that the core uses (the audio
device handles are represented by the sink oracle). -/
structure Private where
  playing : Bool
  volume : ℤ
  sample_fq : ℤ
  tone_fq_lo : ℤ
  tone_fq_hi : ℤ
  phase_lo : ℝ
  phase_hi : ℝ
  dtmf_levels : Fin 8 → ℝ

/-- The default member initialisers of `MainWindow::Private`. -/
def Private.init : Private where
  playing := false
  volume := 5000
  sample_fq := 8000
  tone_fq_lo := 0
  tone_fq_hi := 0
  phase_lo := 0
  phase_hi := 0
  dtmf_levels := fun _ => 0

/-! ## Goertzel detector -/

/-- The loop body of `goertzel`, run over the samples in order; the pair is
`(q1, q2)`. -/
def goertzelLoop (coeff : ℝ) : List ℤ → ℝ × ℝ → ℝ × ℝ
  | [], q => q
  | x :: xs, (q1, q2) => goertzelLoop coeff xs (coeff * q1 - q2 + (x : ℝ), q1)

/-- The function `goertzel(size, data, sample_fq, detect_fq)`; the loop reads
`data[0 .. size-1]`. -/
noncomputable def goertzel (size : ℕ) (data : List ℤ) (sample_fq detect_fq : ℤ) : ℝ :=
  let omega := PI2 * (detect_fq : ℝ) / (sample_fq : ℝ)
  let sine := Real.sin omega
  let cosine := Real.cos omega
  let coeff := cosine * 2
  let q := goertzelLoop coeff (data.take size) (0, 0)
  let real := (q.1 - q.2 * cosine) / ((size : ℝ) / 2)
  let imag := (q.2 * sine) / ((size : ℝ) / 2)
  Real.sqrt (real * real + imag * imag)

/-- The method `MainWindow::detectDTMF(size, data)`. -/
noncomputable def detectDTMF (size : ℕ) (data : List ℤ) (m : Private) : Private :=
  { m with dtmf_levels := fun i => goertzel size data m.sample_fq (dtmf_fq i) }

/-! ## Tone selection and button handlers -/

/-- The method `MainWindow::setTone(c)`: two `switch` statements without a
`default` label. -/
def setTone (c : Char) (m : Private) : Private :=
  let m1 : Private :=
    if c = '1' ∨ c = '2' ∨ c = '3' ∨ c = 'A' then { m with tone_fq_lo := 697 }
    else if c = '4' ∨ c = '5' ∨ c = '6' ∨ c = 'B' then { m with tone_fq_lo := 770 }
    else if c = '7' ∨ c = '8' ∨ c = '9' ∨ c = 'C' then { m with tone_fq_lo := 852 }
    else if c = '*' ∨ c = '0' ∨ c = '#' ∨ c = 'D' then { m with tone_fq_lo := 941 }
    else m
  if c = '1' ∨ c = '4' ∨ c = '7' ∨ c = '*' then { m1 with tone_fq_hi := 1209 }
  else if c = '2' ∨ c = '5' ∨ c = '8' ∨ c = '0' then { m1 with tone_fq_hi := 1336 }
  else if c = '3' ∨ c = '6' ∨ c = '9' ∨ c = '#' then { m1 with tone_fq_hi := 1477 }
  else if c = 'A' ∨ c = 'B' ∨ c = 'C' ∨ c = 'D' then { m1 with tone_fq_hi := 1633 }
  else m1

/-- The handler `on_pushButton_clicked`. -/
def on_pushButton_clicked (m : Private) : Private := { m with playing := !m.playing }

/-- The handler `on_toolButton_pressed`. -/
def on_toolButton_pressed (m : Private) : Private := { m with playing := true }

/-- The handler `on_toolButton_released` (and every `on_toolButton_*_released`). -/
def on_toolButton_released (m : Private) : Private := { m with playing := false }

/-- The handlers `on_toolButton_*_pressed`, for the key labelled `c`. -/
def on_toolButton_key_pressed (c : Char) (m : Private) : Private :=
  { setTone c m with playing := true }

/-- The sixteen keypad symbols, in the order of the `on_toolButton_*_pressed`
handlers. -/
def keypad : Fin 16 → Char :=
  !['1', '2', '3', '4', '5', '6', '7', '8', '9', '*', '0', '#', 'A', 'B', 'C', 'D']

/-! ## Tone generator -/

/-- The loop `while (phase >= PI2) phase -= PI2;`. -/
noncomputable def wrap (p : ℝ) : ℝ :=
  if PI2 ≤ p then wrap (p - PI2) else p
termination_by ⌊p / PI2⌋₊
decreasing_by
  have hpos : 0 < PI2 := by unfold PI2; positivity
  rename_i h
  have h1 : (p - PI2) / PI2 = p / PI2 - 1 := by field_simp
  have h2 : (1 : ℝ) ≤ p / PI2 := by rw [le_div_iff₀ hpos]; linarith
  rw [h1]
  have h3 : ⌊p / PI2 - 1⌋₊ = ⌊p / PI2⌋₊ - 1 := Nat.floor_sub_one _
  have h4 : 1 ≤ ⌊p / PI2⌋₊ := Nat.le_floor (by simpa using h2)
  omega

/-- Lines 106-108 of `outputAudio`: the value of the `int v` when it is
stored into `buf[i]`. Each `v += double` adds in `double` and converts the
sum back to `int`. The `int` of the source has 32 bits and a conversion of a
`double` outside its range is undefined; here `v` is an unbounded integer, so
the value is that of the source as long as both converted sums lie within
`[-2^31, 2^31 - 1]`, which holds whenever `|volume| < 2^30`. -/
noncomputable def sampleValue (add_lo add_hi : ℝ) (m : Private) : ℤ :=
  let v0 : ℤ := 0
  let v1 : ℤ :=
    if add_lo ≠ 0 then truncToInt ((v0 : ℝ) + Real.sin m.phase_lo * (m.volume : ℝ)) else v0
  let v2 : ℤ :=
    if add_hi ≠ 0 then truncToInt ((v1 : ℝ) + Real.sin m.phase_hi * (m.volume : ℝ)) else v1
  v2

/-- One iteration of the `for` loop of `outputAudio` (lines 106-113): the
sample stored in `buf[i]` and the state after the phase advance. -/
noncomputable def renderSample (add_lo add_hi : ℝ) (m : Private) : ℤ × Private :=
  (toInt16 (sampleValue add_lo add_hi m),
    { m with phase_lo := wrap (m.phase_lo + add_lo), phase_hi := wrap (m.phase_hi + add_hi) })

/-- The `for (int i = 0; i < n; i++)` loop of `outputAudio`: the buffer
contents `buf[0 .. n-1]` and the final state. -/
noncomputable def renderLoop (add_lo add_hi : ℝ) : ℕ → Private → List ℤ × Private
  | 0, m => ([], m)
  | n + 1, m =>
    let r := renderSample add_lo add_hi m
    let rest := renderLoop add_lo add_hi n r.2
    (r.1 :: rest.1, rest.2)

/-- Lines 103-114 of `outputAudio`: the two increments are computed from the
current frequencies, then `n` samples are rendered. -/
noncomputable def render (n : ℕ) (m : Private) : List ℤ × Private :=
  let add_lo := PI2 * (m.tone_fq_lo : ℝ) / (m.sample_fq : ℝ)
  let add_hi := PI2 * (m.tone_fq_hi : ℝ) / (m.sample_fq : ℝ)
  renderLoop add_lo add_hi n m

/-! ## Streaming controller -/

/-- Result of a call of `outputAudio`: the final state and the chunks passed
to `device->write`, in order. -/
structure TickResult where
  state : Private
  written : List (List ℤ)

/-- The `while (1)` loop of `outputAudio`. The list holds the successive
answers of `bytesFree()`; `none` means the answers ran out before the loop
returned. -/
noncomputable def outputAudioLoop : List ℕ → Private → List (List ℤ) → Option TickResult
  | [], _, _ => none
  | bytesFree :: rest, m, log =>
    let n := bytesFree / 2
    if n < 96 then some ⟨m, log⟩
    else
      let r := render n m
      outputAudioLoop rest (detectDTMF r.1.length r.1 r.2) (log ++ [r.1])

/-- The method `MainWindow::outputAudio`, also the audio part of `timerEvent`. -/
noncomputable def outputAudio (sink : List ℕ) (m : Private) : Option TickResult :=
  if !m.playing then some ⟨{ m with dtmf_levels := fun _ => 0 }, []⟩
  else outputAudioLoop sink m []

/-! ## Events -/

/-- The inputs of the window: a direct `setTone` call, the three plain
buttons, the sixteen key buttons, and a timer tick together with the answers
the sink gives to `bytesFree()` during that tick. -/
inductive Event where
  | selectTone (c : Char)
  | toggle
  | play
  | stop
  | keyPressed (i : Fin 16)
  | keyReleased
  | tick (sink : List ℕ)

/-- Effect of one event on the state; a tick whose sink answers run out
before `outputAudio` returns has no result. -/
noncomputable def step : Event → Private → Option Private
  | Event.selectTone c, m => some (setTone c m)
  | Event.toggle, m => some (on_pushButton_clicked m)
  | Event.play, m => some (on_toolButton_pressed m)
  | Event.stop, m => some (on_toolButton_released m)
  | Event.keyPressed i, m => some (on_toolButton_key_pressed (keypad i) m)
  | Event.keyReleased, m => some (on_toolButton_released m)
  | Event.tick sink, m => (outputAudio sink m).map TickResult.state

/-- Effect of a sequence of events, left to right. -/
noncomputable def run : List Event → Private → Option Private
  | [], m => some m
  | e :: es, m => (step e m).bind (run es)

/-- States the window can be in between two events, starting from the
default-initialised `Private`. -/
inductive Reachable : Private → Prop where
  | init : Reachable Private.init
  | step (e : Event) (m m' : Private) : Reachable m → step e m = some m' → Reachable m'

/-- The pair `(tone_fq_lo, tone_fq_hi)` left by `setTone c`. -/
def tonePair (c : Char) (m : Private) : ℤ × ℤ :=
  ((setTone c m).tone_fq_lo, (setTone c m).tone_fq_hi)

/-- The error of the symbol lookup described by the specification. -/
inductive LookupError where
  | InvalidSymbol
  deriving DecidableEq

/-- Specification-level lookup, written from the words of the specification
(not from the source): `lookup(symbol)` returns the pair of the static
16-entry table and fails with `InvalidSymbol` for any other symbol. -/
def lookupSpec (c : Char) : Except LookupError (ℤ × ℤ) :=
  if c = '1' then Except.ok (697, 1209)
  else if c = '2' then Except.ok (697, 1336)
  else if c = '3' then Except.ok (697, 1477)
  else if c = 'A' then Except.ok (697, 1633)
  else if c = '4' then Except.ok (770, 1209)
  else if c = '5' then Except.ok (770, 1336)
  else if c = '6' then Except.ok (770, 1477)
  else if c = 'B' then Except.ok (770, 1633)
  else if c = '7' then Except.ok (852, 1209)
  else if c = '8' then Except.ok (852, 1336)
  else if c = '9' then Except.ok (852, 1477)
  else if c = 'C' then Except.ok (852, 1633)
  else if c = '*' then Except.ok (941, 1209)
  else if c = '0' then Except.ok (941, 1336)
  else if c = '#' then Except.ok (941, 1477)
  else if c = 'D' then Except.ok (941, 1633)
  else Except.error LookupError.InvalidSymbol

/-- A call `setTone(c)` as its caller sees it. The method is `void`, has no
`throw`, no status result and no error flag: every call returns normally,
with the state that the two `switch` statements leave. -/
def setToneCall (c : Char) (m : Private) : Except LookupError Private :=
  Except.ok (setTone c m)

/-! ## Auxiliary definitions for the detector -/

/-- The complex number `q1 - q2 * exp(-i*omega)` attached to a loop state. -/
noncomputable def loopValue (omega : ℝ) (q : ℝ × ℝ) : ℂ :=
  (q.1 : ℂ) - (q.2 : ℂ) * Complex.exp (-((omega : ℂ) * Complex.I))

/-- The single-bin sum `sum_{k < n} x[k] * exp(-i*omega*k)`. -/
noncomputable def binSum (omega : ℝ) (x : List ℤ) (n : ℕ) : ℂ :=
  ∑ k in Finset.range n, ((x.getD k 0 : ℤ) : ℂ) * Complex.exp (-(Complex.I * (omega : ℂ) * (k : ℂ)))

/-! ## Auxiliary definitions for the generator -/

/-- The invariant of the reachable states: both phases in `[0, 2*pi)`, sample
rate 8000, and both frequencies in `[0, 8000)`. -/
def Inv (m : Private) : Prop :=
  (0 ≤ m.phase_lo ∧ m.phase_lo < PI2) ∧ (0 ≤ m.phase_hi ∧ m.phase_hi < PI2)
  ∧ m.sample_fq = 8000
  ∧ (0 ≤ m.tone_fq_lo ∧ m.tone_fq_lo < 8000) ∧ (0 ≤ m.tone_fq_hi ∧ m.tone_fq_hi < 8000)

/-- The state used to test the rounding claim: low tone 697 Hz, no high tone,
low phase `pi/3`, volume 1. -/
noncomputable def roundingProbe : Private :=
  { Private.init with tone_fq_lo := 697, phase_lo := Real.pi / 3, volume := 1 }

/-! ## End-to-end scenario -/

/-- Start of the end-to-end scenario: the default state with volume `V`, after
`setTone('5')`. -/
def scenarioStart (V : ℤ) : Private := setTone '5' { Private.init with volume := V }

/-- The chunk of 160 samples rendered from the start state. -/
noncomputable def scenarioChunk (V : ℤ) : List ℤ := (render 160 (scenarioStart V)).1

/-- The level vector after `detectDTMF` has run over that chunk. -/
noncomputable def scenarioLevels (V : ℤ) : Fin 8 → ℝ :=
  (detectDTMF 160 (scenarioChunk V) (render 160 (scenarioStart V)).2).dtmf_levels

/-! ## Tone selection -/

/-- C1: for each of the 16 keypad symbols `setTone` sets the frequency pair to
the keypad-grid pair whatever the prior state; the map from symbols to pairs
is injective, every low value is one of `dtmf_fq[0..3]`, every high value one
of `dtmf_fq[4..7]`, and every pair of the 4x4 product is reached. -/
theorem setTone_keypad_grid (m : Private) :
    (fun i => tonePair (keypad i) m) =
      ![(697, 1209), (697, 1336), (697, 1477),
        (770, 1209), (770, 1336), (770, 1477),
        (852, 1209), (852, 1336), (852, 1477),
        (941, 1209), (941, 1336), (941, 1477),
        (697, 1633), (770, 1633), (852, 1633), (941, 1633)]
    ∧ Function.Injective keypad
    ∧ Function.Injective (fun i => tonePair (keypad i) m)
    ∧ (∀ i : Fin 16, ∃ j : Fin 4, (tonePair (keypad i) m).1 = dtmf_fq (Fin.castAdd 4 j))
    ∧ (∀ i : Fin 16, ∃ j : Fin 4, (tonePair (keypad i) m).2 = dtmf_fq (Fin.natAdd 4 j))
    ∧ (∀ a b : Fin 4, ∃ i : Fin 16,
        tonePair (keypad i) m = (dtmf_fq (Fin.castAdd 4 a), dtmf_fq (Fin.natAdd 4 b))) := by
  have key : (fun i => tonePair (keypad i) m) =
      ![(697, 1209), (697, 1336), (697, 1477),
        (770, 1209), (770, 1336), (770, 1477),
        (852, 1209), (852, 1336), (852, 1477),
        (941, 1209), (941, 1336), (941, 1477),
        (697, 1633), (770, 1633), (852, 1633), (941, 1633)] := by
    funext i
    fin_cases i <;> rfl
  have hval : ∀ i, tonePair (keypad i) m = (![(697, 1209), (697, 1336), (697, 1477),
        (770, 1209), (770, 1336), (770, 1477),
        (852, 1209), (852, 1336), (852, 1477),
        (941, 1209), (941, 1336), (941, 1477),
        (697, 1633), (770, 1633), (852, 1633), (941, 1633)] : Fin 16 → ℤ × ℤ) i :=
    fun i => congrFun key i
  refine ⟨key, by decide, ?_, ?_, ?_, ?_⟩
  · intro i j h
    simp only [hval] at h
    revert i j
    decide
  · intro i
    rw [hval]
    revert i
    decide
  · intro i
    rw [hval]
    revert i
    decide
  · intro a b
    simp only [hval]
    revert a b
    decide

/-! ## Phase continuity -/

theorem renderLoop_append (add_lo add_hi : ℝ) (a b : ℕ) (m : Private) :
    renderLoop add_lo add_hi (a + b) m =
      ((renderLoop add_lo add_hi a m).1 ++
          (renderLoop add_lo add_hi b (renderLoop add_lo add_hi a m).2).1,
        (renderLoop add_lo add_hi b (renderLoop add_lo add_hi a m).2).2) := by
  induction a generalizing m with
  | zero => simp [renderLoop]
  | succ a ih =>
    have h : a + 1 + b = (a + b) + 1 := by omega
    rw [h]
    simp only [renderLoop, ih, List.cons_append]

theorem renderLoop_frame (add_lo add_hi : ℝ) (n : ℕ) (m : Private) :
    (renderLoop add_lo add_hi n m).2.playing = m.playing
    ∧ (renderLoop add_lo add_hi n m).2.volume = m.volume
    ∧ (renderLoop add_lo add_hi n m).2.sample_fq = m.sample_fq
    ∧ (renderLoop add_lo add_hi n m).2.tone_fq_lo = m.tone_fq_lo
    ∧ (renderLoop add_lo add_hi n m).2.tone_fq_hi = m.tone_fq_hi
    ∧ (renderLoop add_lo add_hi n m).2.dtmf_levels = m.dtmf_levels := by
  induction n generalizing m with
  | zero => simp [renderLoop]
  | succ n ih =>
    simp only [renderLoop]
    have h := ih (renderSample add_lo add_hi m).2
    simpa [renderSample] using h

theorem renderLoop_length (add_lo add_hi : ℝ) (n : ℕ) (m : Private) :
    (renderLoop add_lo add_hi n m).1.length = n := by
  induction n generalizing m with
  | zero => simp [renderLoop]
  | succ n ih => simp [renderLoop, ih]

theorem render_add (a b : ℕ) (m : Private) :
    render (a + b) m =
      ((render a m).1 ++ (render b (render a m).2).1, (render b (render a m).2).2) := by
  obtain ⟨-, -, h3, h4, h5, -⟩ := renderLoop_frame
    (PI2 * (m.tone_fq_lo : ℝ) / (m.sample_fq : ℝ))
    (PI2 * (m.tone_fq_hi : ℝ) / (m.sample_fq : ℝ)) a m
  simp only [render, h3, h4, h5]
  exact renderLoop_append _ _ a b m

/-- C4: rendering `a` samples and then, from the resulting state, `b` samples
gives the same sample sequence and the same final state (so the same
`phase_lo` and `phase_hi`) as rendering `a + b` samples at once. -/
theorem render_append (a b : ℕ) (m : Private) :
    render (a + b) m =
        ((render a m).1 ++ (render b (render a m).2).1, (render b (render a m).2).2)
    ∧ (render (a + b) m).1 = (render a m).1 ++ (render b (render a m).2).1
    ∧ (render (a + b) m).2.phase_lo = (render b (render a m).2).2.phase_lo
    ∧ (render (a + b) m).2.phase_hi = (render b (render a m).2).2.phase_hi := by
  have h := render_add a b m
  refine ⟨h, ?_, ?_, ?_⟩ <;> rw [h]

/-! ## Idle ticks and handlers -/

theorem outputAudio_idle (sink : List ℕ) (m : Private) (h : m.playing = false) :
    outputAudio sink m = some ⟨{ m with dtmf_levels := fun _ => 0 }, []⟩ := by
  simp [outputAudio, h]

theorem setTone_frame (c : Char) (m : Private) :
    (setTone c m).playing = m.playing ∧ (setTone c m).volume = m.volume
    ∧ (setTone c m).sample_fq = m.sample_fq
    ∧ (setTone c m).phase_lo = m.phase_lo ∧ (setTone c m).phase_hi = m.phase_hi
    ∧ (setTone c m).dtmf_levels = m.dtmf_levels := by
  unfold setTone
  simp only []
  split_ifs <;> simp

theorem run_idle_ticks (ticks : List (List ℕ)) (m : Private) (h : m.playing = false) :
    ∃ m', run (ticks.map Event.tick) m = some m' ∧ m'.playing = false
      ∧ m'.phase_lo = m.phase_lo ∧ m'.phase_hi = m.phase_hi := by
  induction ticks generalizing m with
  | nil => exact ⟨m, by simp [run], h, rfl, rfl⟩
  | cons t ts ih =>
    obtain ⟨m', h1, h2, h3, h4⟩ := ih { m with dtmf_levels := fun _ => 0 } h
    refine ⟨m', ?_, h2, h3, h4⟩
    simp [run, step, outputAudio_idle t m h, h1]

theorem run_append (es fs : List Event) (m : Private) :
    run (es ++ fs) m = (run es m).bind (run fs) := by
  induction es generalizing m with
  | nil => simp [run]
  | cons e es ih =>
    simp only [List.cons_append, run]
    cases step e m with
    | none => simp
    | some m1 => simp [ih]

/-- C7: a tick taken while `playing` is false zeroes the eight levels, writes
nothing and leaves phases, frequencies, volume and the playing flag as they
were, and a further idle tick changes nothing; `setTone` and the play, stop
and toggle handlers leave both phases unchanged; hence after stop, any number
of idle ticks, `setTone` and play the phases are those before the stop. -/
theorem idle_tick_and_handlers_keep_phase (m : Private) (hidle : m.playing = false)
    (sink : List ℕ) (c : Char) (m0 : Private) (ticks : List (List ℕ)) :
    (∃ r, outputAudio sink m = some r ∧ r.written = []
      ∧ (∀ i, r.state.dtmf_levels i = 0)
      ∧ r.state.phase_lo = m.phase_lo ∧ r.state.phase_hi = m.phase_hi
      ∧ r.state.tone_fq_lo = m.tone_fq_lo ∧ r.state.tone_fq_hi = m.tone_fq_hi
      ∧ r.state.volume = m.volume ∧ r.state.playing = m.playing
      ∧ ∀ sink2, outputAudio sink2 r.state = some r)
    ∧ ((setTone c m0).phase_lo = m0.phase_lo ∧ (setTone c m0).phase_hi = m0.phase_hi)
    ∧ ((on_toolButton_pressed m0).phase_lo = m0.phase_lo
      ∧ (on_toolButton_pressed m0).phase_hi = m0.phase_hi)
    ∧ ((on_toolButton_released m0).phase_lo = m0.phase_lo
      ∧ (on_toolButton_released m0).phase_hi = m0.phase_hi)
    ∧ ((on_pushButton_clicked m0).phase_lo = m0.phase_lo
      ∧ (on_pushButton_clicked m0).phase_hi = m0.phase_hi)
    ∧ ((on_toolButton_key_pressed c m0).phase_lo = m0.phase_lo
      ∧ (on_toolButton_key_pressed c m0).phase_hi = m0.phase_hi)
    ∧ (∃ m1, run (Event.stop :: (ticks.map Event.tick ++
          [Event.selectTone c, Event.play])) m0 = some m1
        ∧ m1.phase_lo = m0.phase_lo ∧ m1.phase_hi = m0.phase_hi) := by
  obtain ⟨-, -, -, hs1, hs2, -⟩ := setTone_frame c m0
  refine ⟨⟨⟨{ m with dtmf_levels := fun _ => 0 }, []⟩, outputAudio_idle sink m hidle, rfl,
    fun _ => rfl, rfl, rfl, rfl, rfl, rfl, rfl, fun sink2 => ?_⟩, ⟨hs1, hs2⟩, ⟨rfl, rfl⟩,
    ⟨rfl, rfl⟩, ⟨rfl, rfl⟩, ⟨hs1, hs2⟩, ?_⟩
  · exact outputAudio_idle sink2 _ hidle
  · obtain ⟨m', h1, -, h3, h4⟩ := run_idle_ticks ticks (on_toolButton_released m0) rfl
    obtain ⟨-, -, -, ht1, ht2, -⟩ := setTone_frame c m'
    refine ⟨on_toolButton_pressed (setTone c m'), ?_, ?_, ?_⟩
    · simp [run, step, run_append, h1]
    · show (setTone c m').phase_lo = m0.phase_lo
      rw [ht1, h3]; rfl
    · show (setTone c m').phase_hi = m0.phase_hi
      rw [ht2, h4]; rfl

theorem idle_tick_and_handlers_keep_phase_witness :
    Private.init.playing = false
    ∧ (∃ m1, run (Event.stop :: (([[], [400]] : List (List ℕ)).map Event.tick ++
          [Event.selectTone '5', Event.play])) Private.init = some m1
        ∧ m1.phase_lo = Private.init.phase_lo ∧ m1.phase_hi = Private.init.phase_hi) :=
  ⟨rfl, (idle_tick_and_handlers_keep_phase Private.init rfl [1000] '5' Private.init
    [[], [400]]).2.2.2.2.2.2⟩

/-! ## Unrecognised symbols -/

theorem setTone_unrecognised (c : Char) (m : Private) (h : ∀ i, c ≠ keypad i) :
    setTone c m = m := by
  have h0 := h 0; have h1 := h 1; have h2 := h 2; have h3 := h 3
  have h4 := h 4; have h5 := h 5; have h6 := h 6; have h7 := h 7
  have h8 := h 8; have h9 := h 9; have h10 := h 10; have h11 := h 11
  have h12 := h 12; have h13 := h 13; have h14 := h 14; have h15 := h 15
  simp only [keypad] at h0 h1 h2 h3 h4 h5 h6 h7 h8 h9 h10 h11 h12 h13 h14 h15
  have e0 : c ≠ '1' := h0
  have e1 : c ≠ '2' := h1
  have e2 : c ≠ '3' := h2
  have e3 : c ≠ '4' := h3
  have e4 : c ≠ '5' := h4
  have e5 : c ≠ '6' := h5
  have e6 : c ≠ '7' := h6
  have e7 : c ≠ '8' := h7
  have e8 : c ≠ '9' := h8
  have e9 : c ≠ '*' := h9
  have e10 : c ≠ '0' := h10
  have e11 : c ≠ '#' := h11
  have e12 : c ≠ 'A' := h12
  have e13 : c ≠ 'B' := h13
  have e14 : c ≠ 'C' := h14
  have e15 : c ≠ 'D' := h15
  simp [setTone, e0, e1, e2, e3, e4, e5, e6, e7, e8, e9, e10, e11, e12, e13, e14, e15]

/-- C8 (as the code behaves): for a character that is none of the 16 keypad
symbols `setTone` returns normally, reports no error, and leaves the whole
state, in particular `tone_fq_lo` and `tone_fq_hi`, unchanged. -/
theorem setTone_unrecognised_is_silent (c : Char) (m : Private) (h : ∀ i, c ≠ keypad i) :
    setToneCall c m = Except.ok m
    ∧ (setTone c m).tone_fq_lo = m.tone_fq_lo ∧ (setTone c m).tone_fq_hi = m.tone_fq_hi := by
  rw [setToneCall, setTone_unrecognised c m h]
  exact ⟨rfl, rfl, rfl⟩

theorem setTone_unrecognised_is_silent_witness :
    (∀ i, 'x' ≠ keypad i)
    ∧ setToneCall 'x' Private.init = Except.ok Private.init
    ∧ (setTone 'x' Private.init).tone_fq_lo = Private.init.tone_fq_lo
    ∧ (setTone 'x' Private.init).tone_fq_hi = Private.init.tone_fq_hi :=
  ⟨by decide, setTone_unrecognised_is_silent 'x' Private.init (by decide)⟩

/-- C8 fails as stated: `x` is none of the 16 symbols, the specification's
lookup fails with `InvalidSymbol`, yet the call `setTone('x')` returns
normally and reports no error. -/
theorem setTone_reports_no_error :
    (∀ i, 'x' ≠ keypad i)
    ∧ lookupSpec 'x' = Except.error LookupError.InvalidSymbol
    ∧ ¬ (∃ e, setToneCall 'x' Private.init = Except.error e) := by
  refine ⟨by decide, rfl, ?_⟩
  rintro ⟨e, he⟩
  simp [setToneCall] at he

/-! ## Goertzel detector: the single-bin transform -/

theorem two_cos_sub_exp_neg (omega : ℝ) :
    ((Real.cos omega * 2 : ℝ) : ℂ) - Complex.exp (-((omega : ℂ) * Complex.I)) =
      Complex.exp ((omega : ℂ) * Complex.I) := by
  have h : -((omega : ℂ) * Complex.I) = ((-omega : ℝ) : ℂ) * Complex.I := by
    push_cast; ring
  rw [h]
  apply Complex.ext
  · rw [Complex.sub_re, Complex.exp_ofReal_mul_I_re, Complex.exp_ofReal_mul_I_re,
      Complex.ofReal_re, Real.cos_neg]
    ring
  · rw [Complex.sub_im, Complex.exp_ofReal_mul_I_im, Complex.exp_ofReal_mul_I_im,
      Complex.ofReal_im, Real.sin_neg]
    ring

theorem loopValue_goertzelLoop (omega : ℝ) (xs : List ℤ) (q : ℝ × ℝ) :
    Complex.exp (-((omega : ℂ) * Complex.I)) ^ xs.length *
        loopValue omega (goertzelLoop (Real.cos omega * 2) xs q) =
      loopValue omega q +
        Complex.exp (-((omega : ℂ) * Complex.I)) *
          ∑ k in Finset.range xs.length,
            ((xs.getD k 0 : ℤ) : ℂ) * Complex.exp (-((omega : ℂ) * Complex.I)) ^ k := by
  induction xs generalizing q with
  | nil => simp [goertzelLoop]
  | cons x xs ih =>
    obtain ⟨q1, q2⟩ := q
    have hE : Complex.exp ((omega : ℂ) * Complex.I) *
        Complex.exp (-((omega : ℂ) * Complex.I)) = 1 := by
      rw [← Complex.exp_add]; simp
    have hstep : loopValue omega (Real.cos omega * 2 * q1 - q2 + (x : ℝ), q1) =
        (x : ℂ) + Complex.exp ((omega : ℂ) * Complex.I) * loopValue omega (q1, q2) := by
      have h2 := two_cos_sub_exp_neg omega
      simp only [loopValue]
      push_cast at h2 ⊢
      linear_combination (q1 : ℂ) * h2 + (q2 : ℂ) * hE
    simp only [goertzelLoop, List.length_cons, pow_succ, Finset.sum_range_succ',
      List.getD_cons_succ, List.getD_cons_zero, pow_zero, mul_one]
    rw [mul_assoc, mul_comm (Complex.exp (-((omega : ℂ) * Complex.I))) (loopValue _ _),
      ← mul_assoc, ih, hstep]
    have hsum : ∑ k in Finset.range xs.length, ((xs.getD k 0 : ℤ) : ℂ) *
          (Complex.exp (-((omega : ℂ) * Complex.I)) ^ k *
            Complex.exp (-((omega : ℂ) * Complex.I))) =
        (∑ k in Finset.range xs.length, ((xs.getD k 0 : ℤ) : ℂ) *
          Complex.exp (-((omega : ℂ) * Complex.I)) ^ k) *
            Complex.exp (-((omega : ℂ) * Complex.I)) := by
      rw [Finset.sum_mul]
      exact Finset.sum_congr rfl (fun k _ => by ring)
    rw [hsum]
    linear_combination (loopValue omega (q1, q2)) * hE

theorem abs_exp_neg_mul_I (omega : ℝ) :
    Complex.abs (Complex.exp (-((omega : ℂ) * Complex.I))) = 1 := by
  have h : -((omega : ℂ) * Complex.I) = ((-omega : ℝ) : ℂ) * Complex.I := by
    push_cast; ring
  rw [h, Complex.abs_exp_ofReal_mul_I]

theorem binSum_eq (omega : ℝ) (x : List ℤ) (n : ℕ) :
    binSum omega x n = ∑ k in Finset.range n,
      ((x.getD k 0 : ℤ) : ℂ) * Complex.exp (-((omega : ℂ) * Complex.I)) ^ k := by
  unfold binSum
  refine Finset.sum_congr rfl (fun k _ => ?_)
  rw [← Complex.exp_nat_mul]
  congr 2
  ring

theorem exp_neg_mul_I_re (omega : ℝ) :
    (Complex.exp (-((omega : ℂ) * Complex.I))).re = Real.cos omega := by
  have h : -((omega : ℂ) * Complex.I) = ((-omega : ℝ) : ℂ) * Complex.I := by
    push_cast; ring
  rw [h, Complex.exp_ofReal_mul_I_re, Real.cos_neg]

theorem exp_neg_mul_I_im (omega : ℝ) :
    (Complex.exp (-((omega : ℂ) * Complex.I))).im = -Real.sin omega := by
  have h : -((omega : ℂ) * Complex.I) = ((-omega : ℝ) : ℂ) * Complex.I := by
    push_cast; ring
  rw [h, Complex.exp_ofReal_mul_I_im, Real.sin_neg]

theorem abs_loopValue_eq (omega : ℝ) (q : ℝ × ℝ) :
    Complex.abs (loopValue omega q) =
      Real.sqrt ((q.1 - q.2 * Real.cos omega) * (q.1 - q.2 * Real.cos omega)
        + (q.2 * Real.sin omega) * (q.2 * Real.sin omega)) := by
  have hv : loopValue omega q =
      ((q.1 - q.2 * Real.cos omega : ℝ) : ℂ) + ((q.2 * Real.sin omega : ℝ) : ℂ) * Complex.I := by
    unfold loopValue
    apply Complex.ext
    · simp only [Complex.sub_re, Complex.mul_re, Complex.ofReal_re, Complex.ofReal_im,
        exp_neg_mul_I_re, exp_neg_mul_I_im, Complex.add_re, Complex.I_re, Complex.I_im]
      ring
    · simp only [Complex.sub_im, Complex.mul_im, Complex.ofReal_re, Complex.ofReal_im,
        exp_neg_mul_I_re, exp_neg_mul_I_im, Complex.add_im, Complex.I_re, Complex.I_im]
      ring
  rw [hv, Complex.abs_apply, Complex.normSq_add_mul_I]
  congr 1
  ring

/-- Value of the detector as a single-bin transform. -/
theorem goertzel_eq_binSum (x : List ℤ) (sample_fq detect_fq : ℤ) :
    goertzel x.length x sample_fq detect_fq =
      2 / (x.length : ℝ) *
        Complex.abs (binSum (PI2 * (detect_fq : ℝ) / (sample_fq : ℝ)) x x.length) := by
  set omega := PI2 * (detect_fq : ℝ) / (sample_fq : ℝ) with homega
  have hloop := loopValue_goertzelLoop omega x (0, 0)
  have h0 : loopValue omega (0, 0) = 0 := by simp [loopValue]
  rw [h0, zero_add] at hloop
  have habs := congrArg Complex.abs hloop
  rw [map_mul, map_mul, map_pow, abs_exp_neg_mul_I, one_pow, one_mul, one_mul,
    ← binSum_eq, abs_loopValue_eq] at habs
  rw [← habs]
  unfold goertzel
  simp only [List.take_length, ← homega]
  set q := goertzelLoop (Real.cos omega * 2) x (0, 0)
  have hN : (0 : ℝ) ≤ 2 / (x.length : ℝ) := by positivity
  rw [← Real.sqrt_sq hN, ← Real.sqrt_mul (sq_nonneg _)]
  congr 1
  by_cases hx : (x.length : ℝ) = 0
  · simp [hx]
  · field_simp
    ring

/-- C2: over the reals, for a block `x` of `N >= 1` samples and a positive
sample rate, `goertzel` returns the single-bin spectral magnitude
`(2/N) * |sum_{k<N} x[k] * exp(-i*omega*k)|` with
`omega = 2*pi*detect_fq/sample_fq`, a non-negative real. -/
theorem goertzel_is_single_bin_magnitude (N : ℕ) (x : List ℤ) (sample_fq detect_fq : ℤ)
    (hN : 1 ≤ N) (hx : x.length = N) (hs : 0 < sample_fq) :
    goertzel N x sample_fq detect_fq =
        2 / (N : ℝ) * Complex.abs (∑ k in Finset.range N, ((x.getD k 0 : ℤ) : ℂ) *
          Complex.exp (-(Complex.I *
            ((2 * Real.pi * (detect_fq : ℝ) / (sample_fq : ℝ) : ℝ) : ℂ) * (k : ℂ))))
    ∧ 0 ≤ goertzel N x sample_fq detect_fq := by
  subst hx
  have h := goertzel_eq_binSum x sample_fq detect_fq
  have hw : PI2 * (detect_fq : ℝ) / (sample_fq : ℝ) =
      2 * Real.pi * (detect_fq : ℝ) / (sample_fq : ℝ) := by
    unfold PI2; ring
  rw [hw] at h
  refine ⟨h, ?_⟩
  rw [h]
  positivity

theorem goertzel_is_single_bin_magnitude_witness :
    goertzel 2 [3, -1] 8000 697 =
        2 / ((2 : ℕ) : ℝ) * Complex.abs (∑ k in Finset.range 2,
          ((([3, -1] : List ℤ).getD k 0 : ℤ) : ℂ) *
          Complex.exp (-(Complex.I *
            ((2 * Real.pi * ((697 : ℤ) : ℝ) / ((8000 : ℤ) : ℝ) : ℝ) : ℂ) * (k : ℂ))))
    ∧ 0 ≤ goertzel 2 [3, -1] 8000 697 :=
  goertzel_is_single_bin_magnitude 2 [3, -1] 8000 697 (by decide) rfl (by decide)

theorem goertzelLoop_zero (coeff : ℝ) (xs : List ℤ) (h : ∀ v ∈ xs, v = 0) :
    goertzelLoop coeff xs (0, 0) = (0, 0) := by
  induction xs with
  | nil => rfl
  | cons x xs ih =>
    have hx : x = 0 := h x (List.mem_cons_self _ _)
    subst hx
    simp only [goertzelLoop]
    have : coeff * 0 - 0 + ((0 : ℤ) : ℝ) = 0 := by simp
    rw [this]
    exact ih (fun v hv => h v (List.mem_cons_of_mem _ hv))

theorem goertzel_zero (N : ℕ) (x : List ℤ) (sample_fq detect_fq : ℤ)
    (h : ∀ v ∈ x, v = 0) : goertzel N x sample_fq detect_fq = 0 := by
  unfold goertzel
  simp only []
  rw [goertzelLoop_zero _ _ (fun v hv => h v (List.mem_of_mem_take hv))]
  simp

/-- C10: for `N >= 1` and a non-zero sample rate, `goertzel` on a block of `N`
zero samples returns exactly 0 for every detection frequency, and `detectDTMF`
on such a block sets all eight levels to 0. -/
theorem goertzel_zero_block (N : ℕ) (x : List ℤ) (sample_fq detect_fq : ℤ) (m : Private)
    (hN : 1 ≤ N) (hx : x.length = N) (hzero : ∀ v ∈ x, v = 0)
    (hs : sample_fq ≠ 0) (hm : m.sample_fq ≠ 0) :
    goertzel N x sample_fq detect_fq = 0
    ∧ (∀ i : Fin 8, goertzel N x sample_fq (dtmf_fq i) = 0)
    ∧ (∀ i : Fin 8, (detectDTMF N x m).dtmf_levels i = 0) :=
  ⟨goertzel_zero N x sample_fq detect_fq hzero,
    fun i => goertzel_zero N x sample_fq (dtmf_fq i) hzero,
    fun i => goertzel_zero N x m.sample_fq (dtmf_fq i) hzero⟩

theorem goertzel_zero_block_witness :
    goertzel 3 [0, 0, 0] 8000 1000 = 0
    ∧ goertzel 3 [0, 0, 0] 8000 (dtmf_fq 2) = 0
    ∧ (detectDTMF 3 [0, 0, 0] Private.init).dtmf_levels 5 = 0 :=
  have h := goertzel_zero_block 3 [0, 0, 0] 8000 1000 Private.init (by decide) rfl
    (by decide) (by decide) (by decide)
  ⟨h.1, h.2.1 2, h.2.2 5⟩

/-! ## Sample value -/

theorem PI2_pos : 0 < PI2 := by unfold PI2; positivity

theorem truncToInt_of_nonneg (x : ℝ) (h : 0 ≤ x) : truncToInt x = ⌊x⌋ := by
  simp [truncToInt, h]

theorem truncToInt_of_neg (x : ℝ) (h : x < 0) : truncToInt x = ⌈x⌉ := by
  simp [truncToInt, not_le.mpr h]

theorem truncToInt_err (x : ℝ) : |(truncToInt x : ℝ) - x| < 1 := by
  unfold truncToInt
  split_ifs with h
  · rw [abs_lt]
    constructor
    · linarith [Int.lt_floor_add_one x]
    · linarith [Int.floor_le x]
  · rw [abs_lt]
    constructor
    · linarith [Int.le_ceil x]
    · linarith [Int.ceil_lt_add_one x]

theorem truncToInt_abs_le (x : ℝ) : |(truncToInt x : ℝ)| ≤ |x| := by
  unfold truncToInt
  split_ifs with h
  · have h1 : (0 : ℝ) ≤ (⌊x⌋ : ℝ) := by exact_mod_cast Int.floor_nonneg.mpr h
    rw [abs_of_nonneg h1, abs_of_nonneg h]
    exact Int.floor_le x
  · have hx : x < 0 := not_le.mp h
    have h1 : (⌈x⌉ : ℝ) ≤ 0 := by exact_mod_cast Int.ceil_le.mpr (by simpa using hx.le)
    rw [abs_of_nonpos h1, abs_of_neg hx]
    linarith [Int.le_ceil x]

theorem truncToInt_zero : truncToInt 0 = 0 := by simp [truncToInt]

theorem add_ne_zero_iff (f s : ℤ) (hs : s ≠ 0) :
    PI2 * (f : ℝ) / (s : ℝ) ≠ 0 ↔ f ≠ 0 := by
  have hs' : (s : ℝ) ≠ 0 := by exact_mod_cast hs
  have hp : PI2 ≠ 0 := ne_of_gt PI2_pos
  constructor
  · intro h hf
    apply h
    simp [hf]
  · intro h
    have hf : (f : ℝ) ≠ 0 := by exact_mod_cast h
    exact div_ne_zero (mul_ne_zero hp hf) hs'

/-- C9 (as the code behaves): for a non-zero sample rate and a volume with
`|volume| < 2^30`, the integer value computed before the store is obtained by
truncation toward zero, not by rounding: `v1 = trunc(sin(phase_lo) * volume)`
if the low frequency is non-zero (else 0), then
`v = trunc(v1 + sin(phase_hi) * volume)` if the high frequency is non-zero
(else `v1`), with the phases as they are before the advance; it is 0 when both
frequencies are 0, and `buf[i]` receives its reduction to 16 bits. Under the
volume bound both converted `double` values and the result lie in the range of
a 32-bit `int`, so no conversion or addition of the source overflows. -/
theorem sampleValue_truncates (m : Private) (hs : m.sample_fq ≠ 0)
    (hv1 : -1073741823 ≤ m.volume) (hv2 : m.volume ≤ 1073741823) :
    sampleValue (PI2 * (m.tone_fq_lo : ℝ) / (m.sample_fq : ℝ))
        (PI2 * (m.tone_fq_hi : ℝ) / (m.sample_fq : ℝ)) m =
      (if m.tone_fq_hi ≠ 0 then
        truncToInt (((if m.tone_fq_lo ≠ 0 then
          truncToInt (Real.sin m.phase_lo * (m.volume : ℝ)) else 0 : ℤ) : ℝ)
            + Real.sin m.phase_hi * (m.volume : ℝ))
      else if m.tone_fq_lo ≠ 0 then truncToInt (Real.sin m.phase_lo * (m.volume : ℝ)) else 0)
    ∧ (m.tone_fq_lo = 0 ∧ m.tone_fq_hi = 0 →
        sampleValue (PI2 * (m.tone_fq_lo : ℝ) / (m.sample_fq : ℝ))
          (PI2 * (m.tone_fq_hi : ℝ) / (m.sample_fq : ℝ)) m = 0)
    ∧ (renderSample (PI2 * (m.tone_fq_lo : ℝ) / (m.sample_fq : ℝ))
          (PI2 * (m.tone_fq_hi : ℝ) / (m.sample_fq : ℝ)) m).1 =
        toInt16 (sampleValue (PI2 * (m.tone_fq_lo : ℝ) / (m.sample_fq : ℝ))
          (PI2 * (m.tone_fq_hi : ℝ) / (m.sample_fq : ℝ)) m)
    ∧ |Real.sin m.phase_lo * (m.volume : ℝ)| ≤ 1073741823
    ∧ |((if m.tone_fq_lo ≠ 0 then
          truncToInt (Real.sin m.phase_lo * (m.volume : ℝ)) else 0 : ℤ) : ℝ)
            + Real.sin m.phase_hi * (m.volume : ℝ)| ≤ 2147483646
    ∧ -2147483648 ≤ sampleValue (PI2 * (m.tone_fq_lo : ℝ) / (m.sample_fq : ℝ))
          (PI2 * (m.tone_fq_hi : ℝ) / (m.sample_fq : ℝ)) m
    ∧ sampleValue (PI2 * (m.tone_fq_lo : ℝ) / (m.sample_fq : ℝ))
          (PI2 * (m.tone_fq_hi : ℝ) / (m.sample_fq : ℝ)) m ≤ 2147483647 := by
  have key : sampleValue (PI2 * (m.tone_fq_lo : ℝ) / (m.sample_fq : ℝ))
        (PI2 * (m.tone_fq_hi : ℝ) / (m.sample_fq : ℝ)) m =
      (if m.tone_fq_hi ≠ 0 then
        truncToInt (((if m.tone_fq_lo ≠ 0 then
          truncToInt (Real.sin m.phase_lo * (m.volume : ℝ)) else 0 : ℤ) : ℝ)
            + Real.sin m.phase_hi * (m.volume : ℝ))
      else if m.tone_fq_lo ≠ 0 then truncToInt (Real.sin m.phase_lo * (m.volume : ℝ)) else 0) := by
    unfold sampleValue
    simp only [add_ne_zero_iff _ _ hs, Int.cast_zero, zero_add]
  have hvr : |(m.volume : ℝ)| ≤ 1073741823 := by
    rw [abs_le]
    constructor
    · exact_mod_cast hv1
    · exact_mod_cast hv2
  set y1 := Real.sin m.phase_lo * (m.volume : ℝ) with hy1
  set y2 := Real.sin m.phase_hi * (m.volume : ℝ) with hy2
  have by1 : |y1| ≤ 1073741823 := by
    rw [hy1, abs_mul]
    have h1 := Real.abs_sin_le_one m.phase_lo
    have h0 := abs_nonneg (m.volume : ℝ)
    nlinarith
  have by2 : |y2| ≤ 1073741823 := by
    rw [hy2, abs_mul]
    have h1 := Real.abs_sin_le_one m.phase_hi
    have h0 := abs_nonneg (m.volume : ℝ)
    nlinarith
  set v1 : ℤ := (if m.tone_fq_lo ≠ 0 then truncToInt y1 else 0) with hv1def
  have bv1 : |(v1 : ℝ)| ≤ 1073741823 := by
    rw [hv1def]
    split_ifs
    · exact le_trans (truncToInt_abs_le y1) by1
    · simp
  have bsum : |(v1 : ℝ) + y2| ≤ 2147483646 := by
    calc |(v1 : ℝ) + y2| ≤ |(v1 : ℝ)| + |y2| := abs_add _ _
      _ ≤ 2147483646 := by linarith
  have bres : |((sampleValue (PI2 * (m.tone_fq_lo : ℝ) / (m.sample_fq : ℝ))
      (PI2 * (m.tone_fq_hi : ℝ) / (m.sample_fq : ℝ)) m : ℤ) : ℝ)| ≤ 2147483646 := by
    rw [key]
    split_ifs with h1
    · exact le_trans (truncToInt_abs_le _) bsum
    · linarith
  have hr := abs_le.mp bres
  refine ⟨key, ?_, rfl, by1, bsum, ?_, ?_⟩
  · rintro ⟨h1, h2⟩
    rw [key, hv1def]
    simp [h1, h2]
  · have : (-2147483648 : ℝ) ≤ ((sampleValue (PI2 * (m.tone_fq_lo : ℝ) / (m.sample_fq : ℝ))
      (PI2 * (m.tone_fq_hi : ℝ) / (m.sample_fq : ℝ)) m : ℤ) : ℝ) := by linarith [hr.1]
    exact_mod_cast this
  · have : ((sampleValue (PI2 * (m.tone_fq_lo : ℝ) / (m.sample_fq : ℝ))
      (PI2 * (m.tone_fq_hi : ℝ) / (m.sample_fq : ℝ)) m : ℤ) : ℝ) ≤ 2147483647 := by
      linarith [hr.2]
    exact_mod_cast this

theorem sampleValue_truncates_witness :
    roundingProbe.sample_fq ≠ 0
    ∧ -1073741823 ≤ roundingProbe.volume ∧ roundingProbe.volume ≤ 1073741823
    ∧ sampleValue (PI2 * (roundingProbe.tone_fq_lo : ℝ) / (roundingProbe.sample_fq : ℝ))
        (PI2 * (roundingProbe.tone_fq_hi : ℝ) / (roundingProbe.sample_fq : ℝ)) roundingProbe =
      (if roundingProbe.tone_fq_hi ≠ 0 then
        truncToInt (((if roundingProbe.tone_fq_lo ≠ 0 then
          truncToInt (Real.sin roundingProbe.phase_lo * (roundingProbe.volume : ℝ)) else 0 : ℤ) : ℝ)
            + Real.sin roundingProbe.phase_hi * (roundingProbe.volume : ℝ))
      else if roundingProbe.tone_fq_lo ≠ 0 then
        truncToInt (Real.sin roundingProbe.phase_lo * (roundingProbe.volume : ℝ)) else 0) :=
  ⟨by simp [roundingProbe, Private.init], by simp [roundingProbe], by simp [roundingProbe],
    (sampleValue_truncates roundingProbe (by simp [roundingProbe, Private.init])
      (by simp [roundingProbe]) (by simp [roundingProbe])).1⟩

theorem sqrt_three_half_bounds : (1 : ℝ) / 2 < Real.sqrt 3 / 2 ∧ Real.sqrt 3 / 2 < 1 := by
  have h1 : (1 : ℝ) < Real.sqrt 3 := by
    rw [show (1 : ℝ) = Real.sqrt 1 by simp]
    exact Real.sqrt_lt_sqrt (by norm_num) (by norm_num)
  have h2 : Real.sqrt 3 < 2 := by
    rw [show (2 : ℝ) = Real.sqrt 4 by
      rw [show (4 : ℝ) = 2 ^ 2 by norm_num, Real.sqrt_sq (by norm_num)]]
    exact Real.sqrt_lt_sqrt (by norm_num) (by norm_num)
  constructor <;> linarith

/-- C9 fails as stated: with phases `(pi/3, 0)` in `[0, 2*pi)`, volume 1, low
frequency 697 and high frequency 0 the code computes 0, while
`round(sin(pi/3) * 1) = round(0.866..) = 1`. -/
theorem sampleValue_is_not_rounded :
    (0 ≤ roundingProbe.phase_lo ∧ roundingProbe.phase_lo < 2 * Real.pi)
    ∧ (0 ≤ roundingProbe.phase_hi ∧ roundingProbe.phase_hi < 2 * Real.pi)
    ∧ roundingProbe.tone_fq_lo ≠ 0 ∧ roundingProbe.tone_fq_hi = 0
    ∧ sampleValue (PI2 * (roundingProbe.tone_fq_lo : ℝ) / (roundingProbe.sample_fq : ℝ))
        (PI2 * (roundingProbe.tone_fq_hi : ℝ) / (roundingProbe.sample_fq : ℝ)) roundingProbe = 0
    ∧ round (Real.sin roundingProbe.phase_lo * (roundingProbe.volume : ℝ)) = 1 := by
  have hb := sqrt_three_half_bounds
  have hpi := Real.pi_pos
  have hval : Real.sin roundingProbe.phase_lo * (roundingProbe.volume : ℝ) = Real.sqrt 3 / 2 := by
    simp [roundingProbe, Real.sin_pi_div_three]
  have hsv : sampleValue (PI2 * (roundingProbe.tone_fq_lo : ℝ) / (roundingProbe.sample_fq : ℝ))
        (PI2 * (roundingProbe.tone_fq_hi : ℝ) / (roundingProbe.sample_fq : ℝ)) roundingProbe =
      truncToInt (Real.sqrt 3 / 2) := by
    have hne : (roundingProbe.sample_fq) ≠ 0 := by simp [roundingProbe, Private.init]
    have hlo : roundingProbe.tone_fq_lo ≠ 0 := by simp [roundingProbe]
    have hhi : roundingProbe.tone_fq_hi = 0 := by simp [roundingProbe, Private.init]
    unfold sampleValue
    simp only [add_ne_zero_iff _ _ hne, Int.cast_zero, zero_add, hval]
    simp [hlo, hhi]
  refine ⟨⟨?_, ?_⟩, ⟨?_, ?_⟩, by simp [roundingProbe], by simp [roundingProbe, Private.init],
    ?_, ?_⟩
  · simp only [roundingProbe]; positivity
  · simp only [roundingProbe]; linarith
  · simp [roundingProbe, Private.init]
  · simp only [roundingProbe, Private.init]; positivity
  · rw [hsv, truncToInt_of_nonneg _ (by linarith [hb.1])]
    rw [Int.floor_eq_iff]
    constructor
    · simp; linarith [hb.1]
    · simp; linarith [hb.2]
  · rw [hval, round_eq, Int.floor_eq_iff]
    constructor
    · push_cast; linarith [hb.1]
    · push_cast; linarith [hb.2]

/-! ## Phase invariant -/

theorem wrap_of_lt (p : ℝ) (h : p < PI2) : wrap p = p := by
  rw [wrap, if_neg (not_le.mpr h)]

theorem wrap_of_ge (p : ℝ) (h : PI2 ≤ p) : wrap p = wrap (p - PI2) := by
  rw [wrap, if_pos h]

/-- With a phase in `[0, 2*pi)` and an increment in `[0, 2*pi)` the wrap loop
subtracts at most once. -/
theorem wrap_step (p add : ℝ) (hp0 : 0 ≤ p) (hp : p < PI2) (ha0 : 0 ≤ add) (ha : add < PI2) :
    wrap (p + add) = (if PI2 ≤ p + add then p + add - PI2 else p + add)
    ∧ 0 ≤ wrap (p + add) ∧ wrap (p + add) < PI2
    ∧ wrap (p + add) = p + add - PI2 * (⌊(p + add) / PI2⌋ : ℝ) := by
  have hpos := PI2_pos
  by_cases h : PI2 ≤ p + add
  · have h1 : wrap (p + add) = p + add - PI2 := by
      rw [wrap_of_ge _ h, wrap_of_lt _ (by linarith)]
    have hfl : ⌊(p + add) / PI2⌋ = 1 := by
      rw [Int.floor_eq_iff]
      constructor
      · rw [le_div_iff₀ hpos]; push_cast; linarith
      · rw [div_lt_iff₀ hpos]; push_cast; linarith
    rw [h1, if_pos h, hfl]
    refine ⟨rfl, by linarith, by linarith, by push_cast; ring⟩
  · have h' : p + add < PI2 := not_le.mp h
    have h1 : wrap (p + add) = p + add := wrap_of_lt _ h'
    have hfl : ⌊(p + add) / PI2⌋ = 0 := by
      rw [Int.floor_eq_iff]
      constructor
      · rw [le_div_iff₀ hpos]; push_cast; linarith
      · rw [div_lt_iff₀ hpos]; push_cast; linarith
    rw [h1, if_neg h, hfl]
    refine ⟨rfl, by linarith, h', by push_cast; ring⟩

theorem add_bounds (f : ℤ) (h0 : 0 ≤ f) (h1 : f < 8000) :
    0 ≤ PI2 * (f : ℝ) / ((8000 : ℤ) : ℝ) ∧ PI2 * (f : ℝ) / ((8000 : ℤ) : ℝ) < PI2 := by
  have hpos := PI2_pos
  have h0' : (0 : ℝ) ≤ (f : ℝ) := by exact_mod_cast h0
  have h1' : (f : ℝ) < 8000 := by exact_mod_cast h1
  constructor
  · positivity
  · push_cast
    rw [div_lt_iff₀ (by norm_num)]
    nlinarith

theorem Inv_init : Inv Private.init := by
  have hpos := PI2_pos
  simp [Inv, Private.init, hpos]

theorem Inv_setTone (c : Char) (m : Private) (h : Inv m) : Inv (setTone c m) := by
  obtain ⟨h1, h2, h3, h4, h5⟩ := h
  unfold setTone
  simp only []
  split_ifs <;> simp [Inv, h1, h2, h3, h4, h5]

theorem Inv_renderSample (m : Private) (h : Inv m) :
    Inv (renderSample (PI2 * (m.tone_fq_lo : ℝ) / (m.sample_fq : ℝ))
      (PI2 * (m.tone_fq_hi : ℝ) / (m.sample_fq : ℝ)) m).2 := by
  obtain ⟨h1, h2, h3, h4, h5⟩ := h
  rw [h3]
  have a1 := add_bounds m.tone_fq_lo h4.1 h4.2
  have a2 := add_bounds m.tone_fq_hi h5.1 h5.2
  have w1 := wrap_step m.phase_lo _ h1.1 h1.2 a1.1 a1.2
  have w2 := wrap_step m.phase_hi _ h2.1 h2.2 a2.1 a2.2
  exact ⟨⟨w1.2.1, w1.2.2.1⟩, ⟨w2.2.1, w2.2.2.1⟩, h3, h4, h5⟩

theorem Inv_renderLoop (n : ℕ) (m m0 : Private) (h : Inv m)
    (hs : m.sample_fq = m0.sample_fq) (hl : m.tone_fq_lo = m0.tone_fq_lo)
    (hh : m.tone_fq_hi = m0.tone_fq_hi) :
    Inv (renderLoop (PI2 * (m0.tone_fq_lo : ℝ) / (m0.sample_fq : ℝ))
      (PI2 * (m0.tone_fq_hi : ℝ) / (m0.sample_fq : ℝ)) n m).2 := by
  induction n generalizing m with
  | zero => simpa [renderLoop] using h
  | succ n ih =>
    simp only [renderLoop]
    have h1 := Inv_renderSample m h
    rw [hs, hl, hh] at h1
    exact ih _ h1 (by simpa [renderSample] using hs) (by simpa [renderSample] using hl)
      (by simpa [renderSample] using hh)

theorem Inv_render (n : ℕ) (m : Private) (h : Inv m) : Inv (render n m).2 :=
  Inv_renderLoop n m m h rfl rfl rfl

theorem Inv_detectDTMF (n : ℕ) (data : List ℤ) (m : Private) (h : Inv m) :
    Inv (detectDTMF n data m) := h

theorem Inv_outputAudioLoop (sink : List ℕ) (m : Private) (log : List (List ℤ))
    (r : TickResult) (h : Inv m) (hr : outputAudioLoop sink m log = some r) : Inv r.state := by
  induction sink generalizing m log with
  | nil => simp [outputAudioLoop] at hr
  | cons b rest ih =>
    simp only [outputAudioLoop] at hr
    split_ifs at hr with hb
    · simp only [Option.some.injEq] at hr
      rw [← hr]; exact h
    · exact ih _ _ (Inv_detectDTMF _ _ _ (Inv_render _ m h)) hr

theorem Inv_outputAudio (sink : List ℕ) (m : Private) (r : TickResult) (h : Inv m)
    (hr : outputAudio sink m = some r) : Inv r.state := by
  unfold outputAudio at hr
  split_ifs at hr with hp
  · simp only [Option.some.injEq] at hr
    rw [← hr]; exact h
  · exact Inv_outputAudioLoop sink m [] r h hr

theorem Inv_step (e : Event) (m m' : Private) (h : Inv m) (hs : step e m = some m') :
    Inv m' := by
  cases e with
  | selectTone c =>
    simp only [step, Option.some.injEq] at hs
    rw [← hs]; exact Inv_setTone c m h
  | toggle =>
    simp only [step, Option.some.injEq] at hs
    rw [← hs]; exact h
  | play =>
    simp only [step, Option.some.injEq] at hs
    rw [← hs]; exact h
  | stop =>
    simp only [step, Option.some.injEq] at hs
    rw [← hs]; exact h
  | keyPressed i =>
    simp only [step, Option.some.injEq] at hs
    rw [← hs]; exact Inv_setTone (keypad i) m h
  | keyReleased =>
    simp only [step, Option.some.injEq] at hs
    rw [← hs]; exact h
  | tick sink =>
    simp only [step, Option.map_eq_some'] at hs
    obtain ⟨r, hr, hrs⟩ := hs
    rw [← hrs]; exact Inv_outputAudio sink m r h hr

theorem Inv_of_reachable (m : Private) (h : Reachable m) : Inv m := by
  induction h with
  | init => exact Inv_init
  | step e m m' _ hs ih => exact Inv_step e m m' ih hs

/-- C6: let `t` be the state after `k` rendered samples of a chunk that starts
in a reachable state. Both phases of `t` lie in `[0, 2*pi)`; rendering the next
sample moves each phase `p` to `x = p + 2*pi*f/sample_fq` reduced modulo
`2*pi`, and the wrap loop subtracts `2*pi` at most once; the phases after that
sample lie in `[0, 2*pi)` again. -/
theorem phase_invariant_reachable (m : Private) (hreach : Reachable m) (k : ℕ)
    (t : Private) (ht : t = (render k m).2) (x_lo x_hi : ℝ)
    (hlo : x_lo = t.phase_lo + PI2 * (t.tone_fq_lo : ℝ) / (t.sample_fq : ℝ))
    (hhi : x_hi = t.phase_hi + PI2 * (t.tone_fq_hi : ℝ) / (t.sample_fq : ℝ)) :
    (0 ≤ t.phase_lo ∧ t.phase_lo < 2 * Real.pi)
    ∧ (0 ≤ t.phase_hi ∧ t.phase_hi < 2 * Real.pi)
    ∧ (render (k + 1) m).2.phase_lo = x_lo - 2 * Real.pi * (⌊x_lo / (2 * Real.pi)⌋ : ℝ)
    ∧ (render (k + 1) m).2.phase_hi = x_hi - 2 * Real.pi * (⌊x_hi / (2 * Real.pi)⌋ : ℝ)
    ∧ (render (k + 1) m).2.phase_lo = (if 2 * Real.pi ≤ x_lo then x_lo - 2 * Real.pi else x_lo)
    ∧ (render (k + 1) m).2.phase_hi = (if 2 * Real.pi ≤ x_hi then x_hi - 2 * Real.pi else x_hi)
    ∧ (0 ≤ (render (k + 1) m).2.phase_lo ∧ (render (k + 1) m).2.phase_lo < 2 * Real.pi)
    ∧ (0 ≤ (render (k + 1) m).2.phase_hi ∧ (render (k + 1) m).2.phase_hi < 2 * Real.pi) := by
  have hP : 2 * Real.pi = PI2 := by unfold PI2; ring
  rw [hP]
  have hinv : Inv t := by rw [ht]; exact Inv_render k m (Inv_of_reachable m hreach)
  obtain ⟨-, -, hf3, hf4, hf5, -⟩ := renderLoop_frame
    (PI2 * (m.tone_fq_lo : ℝ) / (m.sample_fq : ℝ))
    (PI2 * (m.tone_fq_hi : ℝ) / (m.sample_fq : ℝ)) k m
  have hnext : (render (k + 1) m).2 =
      (renderSample (PI2 * (t.tone_fq_lo : ℝ) / (t.sample_fq : ℝ))
        (PI2 * (t.tone_fq_hi : ℝ) / (t.sample_fq : ℝ)) t).2 := by
    rw [render_add k 1 m, ← ht]
    simp [render, renderLoop]
  obtain ⟨h1, h2, h3, h4, h5⟩ := hinv
  have a1 := add_bounds t.tone_fq_lo h4.1 h4.2
  have a2 := add_bounds t.tone_fq_hi h5.1 h5.2
  rw [← h3] at a1 a2
  have w1 := wrap_step t.phase_lo _ h1.1 h1.2 a1.1 a1.2
  have w2 := wrap_step t.phase_hi _ h2.1 h2.2 a2.1 a2.2
  rw [← hlo] at w1
  rw [← hhi] at w2
  have e1 : (render (k + 1) m).2.phase_lo = wrap x_lo := by rw [hnext, hlo]; rfl
  have e2 : (render (k + 1) m).2.phase_hi = wrap x_hi := by rw [hnext, hhi]; rfl
  rw [e1, e2]
  exact ⟨h1, h2, w1.2.2.2, w2.2.2.2, w1.1, w2.1, ⟨w1.2.1, w1.2.2.1⟩, ⟨w2.2.1, w2.2.2.1⟩⟩

theorem phase_invariant_reachable_witness :
    Reachable (on_toolButton_key_pressed '5' Private.init)
    ∧ (0 ≤ (render 1 (on_toolButton_key_pressed '5' Private.init)).2.phase_lo
      ∧ (render 1 (on_toolButton_key_pressed '5' Private.init)).2.phase_lo < 2 * Real.pi) :=
  have hr : Reachable (on_toolButton_key_pressed '5' Private.init) :=
    Reachable.step (Event.keyPressed 4) Private.init _ Reachable.init rfl
  ⟨hr, (phase_invariant_reachable (on_toolButton_key_pressed '5' Private.init) hr 1 _ rfl
    _ _ rfl rfl).1⟩

/-! ## Streaming tick -/

theorem render_length (n : ℕ) (m : Private) : (render n m).1.length = n :=
  renderLoop_length _ _ n m

theorem render_sample_fq (n : ℕ) (m : Private) : (render n m).2.sample_fq = m.sample_fq :=
  (renderLoop_frame _ _ n m).2.2.1

theorem outputAudioLoop_stop (b : ℕ) (rest : List ℕ) (m : Private) (log : List (List ℤ))
    (h : b / 2 < 96) : outputAudioLoop (b :: rest) m log = some ⟨m, log⟩ := by
  simp [outputAudioLoop, h]

theorem outputAudioLoop_chunk (b : ℕ) (rest : List ℕ) (m : Private) (log : List (List ℤ))
    (h : 96 ≤ b / 2) :
    outputAudioLoop (b :: rest) m log =
      outputAudioLoop rest
        { (render (b / 2) m).2 with
          dtmf_levels := fun i => goertzel (b / 2) (render (b / 2) m).1 m.sample_fq (dtmf_fq i) }
        (log ++ [(render (b / 2) m).1]) := by
  simp only [outputAudioLoop, if_neg (not_lt.mpr h), detectDTMF, render_length,
    render_sample_fq]

theorem outputAudioLoop_run (pre : List ℕ) (last : ℕ) (m : Private) (log : List (List ℤ))
    (hpre : ∀ b ∈ pre, 96 ≤ b / 2) (hlast : last / 2 < 96) :
    ∃ r chunks, outputAudioLoop (pre ++ [last]) m log = some r
      ∧ r.written = log ++ chunks
      ∧ chunks.map List.length = pre.map (fun b => b / 2)
      ∧ r.state.sample_fq = m.sample_fq
      ∧ (pre = [] → r.state = m)
      ∧ (∀ c, chunks.getLast? = some c →
          ∀ i, r.state.dtmf_levels i = goertzel c.length c m.sample_fq (dtmf_fq i)) := by
  induction pre generalizing m log with
  | nil =>
    refine ⟨⟨m, log⟩, [], ?_, by simp, rfl, rfl, fun _ => rfl, ?_⟩
    · simpa using outputAudioLoop_stop last [] m log hlast
    · intro c hc; simp at hc
  | cons b pre ih =>
    have hb : 96 ≤ b / 2 := hpre b (List.mem_cons_self _ _)
    have hpre' : ∀ b ∈ pre, 96 ≤ b / 2 := fun x hx => hpre x (List.mem_cons_of_mem _ hx)
    obtain ⟨r, chunks, h1, h2, h3, h4, h5, h6⟩ := ih
      { (render (b / 2) m).2 with
        dtmf_levels := fun i => goertzel (b / 2) (render (b / 2) m).1 m.sample_fq (dtmf_fq i) }
      (log ++ [(render (b / 2) m).1]) hpre'
    refine ⟨r, (render (b / 2) m).1 :: chunks, ?_, ?_, ?_, ?_, ?_, ?_⟩
    · rw [List.cons_append, outputAudioLoop_chunk b _ m log hb, h1]
    · rw [h2]; simp
    · simp [h3, render_length]
    · rw [h4]; exact render_sample_fq _ m
    · intro h; simp at h
    · intro c hc i
      cases chunks with
      | nil =>
        have hp : pre = [] := by
          cases pre with
          | nil => rfl
          | cons x xs => simp at h3
        simp only [List.getLast?_singleton, Option.some.injEq] at hc
        rw [h5 hp, ← hc, render_length]
      | cons c2 cs =>
        rw [List.getLast?_cons_cons] at hc
        have := h6 c hc i
        rw [this]
        show goertzel c.length c (render (b / 2) m).2.sample_fq (dtmf_fq i) = _
        rw [render_sample_fq]

/-- C5: while `playing` is true, `outputAudio` reads the free capacity
`n = bytesFree / 2`; at a reading with `n < 96` it returns and changes nothing;
at a reading with `n >= 96` it renders exactly `n` samples, writes that chunk
unchanged and sets the eight levels to `goertzel(n, chunk, sample_fq,
dtmf_fq[i])`, then reads again. For readings whose only value below 96 is the
last, the call returns, the chunks written have the lengths of the readings
`>= 96` (so their total is the sum of those readings), and the final levels
are those of the last chunk written, or the initial levels if none was. -/
theorem outputAudio_streaming (m : Private) (hplay : m.playing = true)
    (b : ℕ) (rest : List ℕ) (m1 : Private) (log : List (List ℤ))
    (pre : List ℕ) (last : ℕ) (hpre : ∀ x ∈ pre, 96 ≤ x / 2) (hlast : last / 2 < 96) :
    (b / 2 < 96 → outputAudio (b :: rest) m = some ⟨m, []⟩
      ∧ outputAudioLoop (b :: rest) m1 log = some ⟨m1, log⟩)
    ∧ (96 ≤ b / 2 →
        (render (b / 2) m1).1.length = b / 2
        ∧ outputAudioLoop (b :: rest) m1 log =
          outputAudioLoop rest
            { (render (b / 2) m1).2 with
              dtmf_levels := fun i =>
                goertzel (b / 2) (render (b / 2) m1).1 m1.sample_fq (dtmf_fq i) }
            (log ++ [(render (b / 2) m1).1]))
    ∧ (∃ r, outputAudio (pre ++ [last]) m = some r
        ∧ r.written.map List.length = pre.map (fun x => x / 2)
        ∧ (r.written.map List.length).sum = (pre.map (fun x => x / 2)).sum
        ∧ (pre = [] → r.written = [] ∧ r.state = m)
        ∧ (∀ c, r.written.getLast? = some c →
            ∀ i, r.state.dtmf_levels i = goertzel c.length c m.sample_fq (dtmf_fq i))) := by
  have hout : ∀ sink, outputAudio sink m = outputAudioLoop sink m [] := by
    intro sink; simp [outputAudio, hplay]
  refine ⟨fun h => ⟨?_, outputAudioLoop_stop b rest m1 log h⟩,
    fun h => ⟨render_length _ m1, outputAudioLoop_chunk b rest m1 log h⟩, ?_⟩
  · rw [hout]; exact outputAudioLoop_stop b rest m [] h
  · obtain ⟨r, chunks, h1, h2, h3, -, h5, h6⟩ := outputAudioLoop_run pre last m [] hpre hlast
    rw [List.nil_append] at h2
    refine ⟨r, by rw [hout]; exact h1, by rw [h2]; exact h3, by rw [h2, h3], ?_, ?_⟩
    · intro hp
      subst hp
      refine ⟨?_, h5 rfl⟩
      rw [h2]
      cases chunks with
      | nil => rfl
      | cons x xs => simp at h3
    · rw [h2]; exact h6

theorem outputAudio_streaming_witness :
    (∃ r, outputAudio ([200, 192] ++ [100]) (on_toolButton_key_pressed '5' Private.init) = some r
        ∧ r.written.map List.length = ([200, 192] : List ℕ).map (fun x => x / 2)
        ∧ (r.written.map List.length).sum = (([200, 192] : List ℕ).map (fun x => x / 2)).sum
        ∧ (([200, 192] : List ℕ) = [] → r.written = []
            ∧ r.state = on_toolButton_key_pressed '5' Private.init)
        ∧ (∀ c, r.written.getLast? = some c →
            ∀ i, r.state.dtmf_levels i =
              goertzel c.length c (on_toolButton_key_pressed '5' Private.init).sample_fq
                (dtmf_fq i))) :=
  (outputAudio_streaming (on_toolButton_key_pressed '5' Private.init) rfl 0 [] Private.init []
    [200, 192] 100 (by decide) (by decide)).2.2

/-! ## Two-tone analysis -/

/-- Modulus of `exp(i*a) - 1`. -/
theorem abs_exp_mul_I_sub_one (a : ℝ) :
    Complex.abs (Complex.exp ((a : ℂ) * Complex.I) - 1) = 2 * |Real.sin (a / 2)| := by
  have hre : (Complex.exp ((a : ℂ) * Complex.I) - 1).re = Real.cos a - 1 := by
    rw [Complex.sub_re, Complex.exp_ofReal_mul_I_re, Complex.one_re]
  have him : (Complex.exp ((a : ℂ) * Complex.I) - 1).im = Real.sin a := by
    rw [Complex.sub_im, Complex.exp_ofReal_mul_I_im, Complex.one_im, sub_zero]
  have hcos : Real.cos a = 1 - 2 * Real.sin (a / 2) ^ 2 := by
    have h := Real.cos_two_mul (a / 2)
    have h2 := Real.sin_sq_add_cos_sq (a / 2)
    rw [show 2 * (a / 2) = a by ring] at h
    rw [h]; linarith
  have hsq : (Real.cos a - 1) * (Real.cos a - 1) + Real.sin a * Real.sin a =
      (2 * |Real.sin (a / 2)|) ^ 2 := by
    have h2 := Real.sin_sq_add_cos_sq a
    rw [mul_pow, sq_abs]
    nlinarith
  rw [Complex.abs_apply, Complex.normSq_apply, hre, him, hsq,
    Real.sqrt_sq (by positivity)]

/-- Bound on a geometric sum of unit complex numbers. -/
theorem abs_geom_sum_exp_le (a c : ℝ) (n : ℕ) (hc : 0 < c) (h : c ≤ |Real.sin (a / 2)|) :
    Complex.abs (∑ k in Finset.range n, Complex.exp ((a : ℂ) * Complex.I) ^ k) ≤ 1 / c := by
  have hg := geom_sum_mul (Complex.exp ((a : ℂ) * Complex.I)) n
  have h1 : Complex.abs (Complex.exp ((a : ℂ) * Complex.I) ^ n - 1) ≤ 2 := by
    have h := norm_sub_le (Complex.exp ((a : ℂ) * Complex.I) ^ n) 1
    rw [Complex.norm_eq_abs, Complex.norm_eq_abs, Complex.norm_eq_abs, map_pow,
      Complex.abs_exp_ofReal_mul_I, one_pow, map_one] at h
    linarith
  have h2 := congrArg Complex.abs hg
  rw [map_mul, abs_exp_mul_I_sub_one] at h2
  have hS : 0 ≤ Complex.abs (∑ k in Finset.range n, Complex.exp ((a : ℂ) * Complex.I) ^ k) :=
    Complex.abs.nonneg _
  rw [le_div_iff₀ hc]
  nlinarith

/-- Jordan's inequality at the angles `pi*g/8000`. -/
theorem jordan_grid (g : ℝ) (h0 : 0 ≤ g) (h1 : g ≤ 4000) :
    g / 4000 ≤ Real.sin (Real.pi * g / 8000) := by
  have hpi := Real.pi_pos
  have h := Real.mul_le_sin (x := Real.pi * g / 8000) (by positivity)
    (by rw [div_le_div_iff₀ (by norm_num) (by norm_num)]; nlinarith)
  have e : 2 / Real.pi * (Real.pi * g / 8000) = g / 4000 := by
    field_simp; ring
  rw [e] at h
  exact h

/-- Geometric sums at the angles `+-pi*g/4000`. -/
theorem abs_geom_sum_grid (g : ℝ) (n : ℕ) (h0 : 0 < g) (h1 : g ≤ 4000) (a : ℝ)
    (ha : a = Real.pi * g / 4000 ∨ a = -(Real.pi * g / 4000)) :
    Complex.abs (∑ k in Finset.range n, Complex.exp ((a : ℂ) * Complex.I) ^ k) ≤ 4000 / g := by
  have hj := jordan_grid g (le_of_lt h0) h1
  have hc : 0 < g / 4000 := by positivity
  have hs : g / 4000 ≤ |Real.sin (a / 2)| := by
    rcases ha with ha | ha
    · rw [ha, show Real.pi * g / 4000 / 2 = Real.pi * g / 8000 by ring]
      exact le_trans hj (le_abs_self _)
    · rw [ha, show -(Real.pi * g / 4000) / 2 = -(Real.pi * g / 8000) by ring, Real.sin_neg,
        abs_neg]
      exact le_trans hj (le_abs_self _)
  have := abs_geom_sum_exp_le a (g / 4000) n hc hs
  rwa [one_div_div] at this

theorem ofReal_sin_nat_mul (k : ℕ) (t : ℝ) :
    ((Real.sin ((k : ℝ) * t) : ℝ) : ℂ) =
      (Complex.exp (((-t : ℝ) : ℂ) * Complex.I) ^ k - Complex.exp ((t : ℂ) * Complex.I) ^ k)
        * Complex.I / 2 := by
  rw [Complex.ofReal_sin, Complex.sin, ← Complex.exp_nat_mul, ← Complex.exp_nat_mul]
  push_cast
  congr 3
  · congr 1; ring
  · congr 1; ring

theorem exp_mul_exp_I (a b : ℝ) :
    Complex.exp ((a : ℂ) * Complex.I) * Complex.exp ((b : ℂ) * Complex.I) =
      Complex.exp (((a + b : ℝ) : ℂ) * Complex.I) := by
  rw [← Complex.exp_add]; push_cast; ring_nf

/-- The two-tone sum against the bin of the first tone, as geometric sums. -/
theorem tone_sum_eq (ta tb : ℝ) (n : ℕ) :
    ∑ k in Finset.range n, ((Real.sin ((k : ℝ) * ta) + Real.sin ((k : ℝ) * tb) : ℝ) : ℂ) *
        Complex.exp (((-ta : ℝ) : ℂ) * Complex.I) ^ k =
      (Complex.I / 2) *
        ((∑ k in Finset.range n, Complex.exp (((-ta + -ta : ℝ) : ℂ) * Complex.I) ^ k) - (n : ℂ)
          + (∑ k in Finset.range n, Complex.exp (((-tb + -ta : ℝ) : ℂ) * Complex.I) ^ k)
          - (∑ k in Finset.range n, Complex.exp (((tb + -ta : ℝ) : ℂ) * Complex.I) ^ k)) := by
  have hone : ∀ k : ℕ, Complex.exp ((ta : ℂ) * Complex.I) ^ k *
      Complex.exp (((-ta : ℝ) : ℂ) * Complex.I) ^ k = 1 := by
    intro k
    rw [← mul_pow, exp_mul_exp_I, add_neg_cancel]
    simp
  have hn : (n : ℂ) = ∑ _k in Finset.range n, (1 : ℂ) := by simp
  rw [hn, ← Finset.sum_sub_distrib, ← Finset.sum_add_distrib, ← Finset.sum_sub_distrib,
    Finset.mul_sum]
  refine Finset.sum_congr rfl (fun k _ => ?_)
  rw [Complex.ofReal_add, ofReal_sin_nat_mul, ofReal_sin_nat_mul, ← exp_mul_exp_I,
    ← exp_mul_exp_I, ← exp_mul_exp_I, mul_pow, mul_pow, mul_pow]
  linear_combination (-(Complex.I / 2)) * hone k

/-- Lower bound for the two-tone sum against the bin of the first tone, for
tones `fa`, `fb` (in Hz) at sample rate 8000. -/
theorem tone_sum_lower (fa fb : ℝ) (n : ℕ) (ha : 0 < fa) (hb : 0 < fb)
    (hab : fa + fb ≤ 4000) (ha2 : fa + fa ≤ 4000) (hne : fa ≠ fb) :
    ((n : ℝ) - 4000 / (fa + fa) - 4000 / (fa + fb) - 4000 / |fb - fa|) / 2 ≤
      Complex.abs (∑ k in Finset.range n,
        ((Real.sin ((k : ℝ) * (Real.pi * fa / 4000))
          + Real.sin ((k : ℝ) * (Real.pi * fb / 4000)) : ℝ) : ℂ) *
        Complex.exp (((-(Real.pi * fa / 4000) : ℝ) : ℂ) * Complex.I) ^ k) := by
  rw [tone_sum_eq]
  set G1 := ∑ k in Finset.range n, Complex.exp
    (((-(Real.pi * fa / 4000) + -(Real.pi * fa / 4000) : ℝ) : ℂ) * Complex.I) ^ k with hG1
  set G2 := ∑ k in Finset.range n, Complex.exp
    (((-(Real.pi * fb / 4000) + -(Real.pi * fa / 4000) : ℝ) : ℂ) * Complex.I) ^ k with hG2
  set G3 := ∑ k in Finset.range n, Complex.exp
    (((Real.pi * fb / 4000 + -(Real.pi * fa / 4000) : ℝ) : ℂ) * Complex.I) ^ k with hG3
  have b1 : Complex.abs G1 ≤ 4000 / (fa + fa) :=
    abs_geom_sum_grid (fa + fa) n (by linarith) ha2 _ (Or.inr (by ring))
  have b2 : Complex.abs G2 ≤ 4000 / (fa + fb) :=
    abs_geom_sum_grid (fa + fb) n (by linarith) hab _ (Or.inr (by ring))
  have b3 : Complex.abs G3 ≤ 4000 / |fb - fa| := by
    rcases lt_or_gt_of_ne hne with h | h
    · rw [abs_of_pos (by linarith)]
      exact abs_geom_sum_grid (fb - fa) n (by linarith) (by linarith) _ (Or.inl (by ring))
    · rw [abs_of_neg (by linarith)]
      exact abs_geom_sum_grid (-(fb - fa)) n (by linarith) (by linarith) _ (Or.inr (by ring))
  have hI : Complex.abs (Complex.I / 2) = 1 / 2 := by
    rw [map_div₀, Complex.abs_I, Complex.abs_two]
  rw [map_mul, hI]
  have hn : Complex.abs (n : ℂ) = (n : ℝ) := Complex.abs_natCast n
  have htri : Complex.abs (n : ℂ) ≤
      Complex.abs G1 + Complex.abs G2 + Complex.abs G3 + Complex.abs (G1 - n + G2 - G3) := by
    have e : (n : ℂ) = G1 + G2 + -G3 + -(G1 - n + G2 - G3) := by ring
    calc Complex.abs (n : ℂ) = Complex.abs (G1 + G2 + -G3 + -(G1 - n + G2 - G3)) := by
          rw [← e]
      _ ≤ Complex.abs (G1 + G2 + -G3) + Complex.abs (-(G1 - n + G2 - G3)) :=
          Complex.abs.add_le _ _
      _ ≤ Complex.abs (G1 + G2) + Complex.abs (-G3) + Complex.abs (-(G1 - n + G2 - G3)) := by
          linarith [Complex.abs.add_le (G1 + G2) (-G3)]
      _ ≤ Complex.abs G1 + Complex.abs G2 + Complex.abs G3
            + Complex.abs (G1 - n + G2 - G3) := by
          rw [map_neg_eq_map, map_neg_eq_map]
          linarith [Complex.abs.add_le G1 G2]
  rw [hn] at htri
  linarith

/-- Lower bound for the bin of the first tone when the samples are within 2
of the ideal two-tone signal of amplitude `V`. -/
theorem bin_lower (V fa fb : ℝ) (x : ℕ → ℤ) (n : ℕ) (hV : 0 ≤ V) (ha : 0 < fa) (hb : 0 < fb)
    (hab : fa + fb ≤ 4000) (ha2 : fa + fa ≤ 4000) (hne : fa ≠ fb)
    (herr : ∀ k, k < n → |(x k : ℝ) - V * (Real.sin ((k : ℝ) * (Real.pi * fa / 4000))
      + Real.sin ((k : ℝ) * (Real.pi * fb / 4000)))| ≤ 2) :
    V * (((n : ℝ) - 4000 / (fa + fa) - 4000 / (fa + fb) - 4000 / |fb - fa|) / 2) - 2 * n ≤
      Complex.abs (∑ k in Finset.range n, ((x k : ℤ) : ℂ) *
        Complex.exp (((-(Real.pi * fa / 4000) : ℝ) : ℂ) * Complex.I) ^ k) := by
  set z := Complex.exp (((-(Real.pi * fa / 4000) : ℝ) : ℂ) * Complex.I) with hz
  set S := ∑ k in Finset.range n,
        ((Real.sin ((k : ℝ) * (Real.pi * fa / 4000))
          + Real.sin ((k : ℝ) * (Real.pi * fb / 4000)) : ℝ) : ℂ) * z ^ k with hS
  set R := ∑ k in Finset.range n,
        (((x k : ℝ) - V * (Real.sin ((k : ℝ) * (Real.pi * fa / 4000))
          + Real.sin ((k : ℝ) * (Real.pi * fb / 4000))) : ℝ) : ℂ) * z ^ k with hR
  have hsplit : ∑ k in Finset.range n, ((x k : ℤ) : ℂ) * z ^ k = (V : ℂ) * S + R := by
    rw [hS, hR, Finset.mul_sum, ← Finset.sum_add_distrib]
    refine Finset.sum_congr rfl (fun k _ => ?_)
    push_cast
    ring
  have hzk : ∀ k : ℕ, Complex.abs (z ^ k) = 1 := by
    intro k
    rw [map_pow, hz, Complex.abs_exp_ofReal_mul_I, one_pow]
  have hRb : Complex.abs R ≤ 2 * n := by
    calc Complex.abs R ≤ ∑ k in Finset.range n,
          Complex.abs ((((x k : ℝ) - V * (Real.sin ((k : ℝ) * (Real.pi * fa / 4000))
          + Real.sin ((k : ℝ) * (Real.pi * fb / 4000))) : ℝ) : ℂ) * z ^ k) :=
          Complex.abs.sum_le _ _
      _ ≤ ∑ _k in Finset.range n, (2 : ℝ) := by
          refine Finset.sum_le_sum (fun k hk => ?_)
          rw [map_mul, hzk, mul_one, Complex.abs_ofReal]
          exact herr k (Finset.mem_range.mp hk)
      _ = 2 * n := by simp [mul_comm]
  have hSb := tone_sum_lower fa fb n ha hb hab ha2 hne
  rw [← hz, ← hS] at hSb
  rw [hsplit]
  have h1 : Complex.abs ((V : ℂ) * S) ≤ Complex.abs ((V : ℂ) * S + R) + Complex.abs R := by
    have e : (V : ℂ) * S = ((V : ℂ) * S + R) + -R := by ring
    calc Complex.abs ((V : ℂ) * S) = Complex.abs (((V : ℂ) * S + R) + -R) := by rw [← e]
      _ ≤ Complex.abs ((V : ℂ) * S + R) + Complex.abs (-R) := Complex.abs.add_le _ _
      _ = Complex.abs ((V : ℂ) * S + R) + Complex.abs R := by rw [map_neg_eq_map]
  have h2 : Complex.abs ((V : ℂ) * S) = V * Complex.abs S := by
    rw [map_mul, Complex.abs_ofReal, abs_of_nonneg hV]
  have h3 : V * (((n : ℝ) - 4000 / (fa + fa) - 4000 / (fa + fb) - 4000 / |fb - fa|) / 2) ≤
      V * Complex.abs S := mul_le_mul_of_nonneg_left hSb hV
  linarith

/-! ## Samples of a two-tone chunk -/

theorem toInt16_of_range (v : ℤ) (h1 : -32768 ≤ v) (h2 : v ≤ 32767) : toInt16 v = v := by
  unfold toInt16
  omega

theorem wrap_eq_sub (p : ℝ) : ∃ j : ℕ, wrap p = p - (j : ℝ) * (2 * Real.pi) := by
  induction p using wrap.induct with
  | case1 p h ih =>
    obtain ⟨j, hj⟩ := ih
    refine ⟨j + 1, ?_⟩
    rw [wrap_of_ge p h, hj]
    unfold PI2
    push_cast
    ring
  | case2 p h =>
    exact ⟨0, by rw [wrap_of_lt p (not_le.mp h)]; simp⟩

theorem renderLoop_phase (al ah : ℝ) (n : ℕ) (m : Private) :
    ∃ j1 j2 : ℕ,
      (renderLoop al ah n m).2.phase_lo = m.phase_lo + (n : ℝ) * al - (j1 : ℝ) * (2 * Real.pi)
      ∧ (renderLoop al ah n m).2.phase_hi =
          m.phase_hi + (n : ℝ) * ah - (j2 : ℝ) * (2 * Real.pi) := by
  induction n generalizing m with
  | zero => exact ⟨0, 0, by simp [renderLoop], by simp [renderLoop]⟩
  | succ n ih =>
    obtain ⟨j1, j2, h1, h2⟩ := ih (renderSample al ah m).2
    obtain ⟨i1, hi1⟩ := wrap_eq_sub (m.phase_lo + al)
    obtain ⟨i2, hi2⟩ := wrap_eq_sub (m.phase_hi + ah)
    refine ⟨j1 + i1, j2 + i2, ?_, ?_⟩
    · simp only [renderLoop]
      rw [h1]
      show wrap (m.phase_lo + al) + _ - _ = _
      rw [hi1]; push_cast; ring
    · simp only [renderLoop]
      rw [h2]
      show wrap (m.phase_hi + ah) + _ - _ = _
      rw [hi2]; push_cast; ring

theorem renderLoop_getD (al ah : ℝ) (n k : ℕ) (m : Private) (hk : k < n) :
    (renderLoop al ah n m).1.getD k 0 = toInt16 (sampleValue al ah (renderLoop al ah k m).2) := by
  induction n generalizing m k with
  | zero => omega
  | succ n ih =>
    cases k with
    | zero => simp [renderLoop, renderSample]
    | succ k =>
      simp only [renderLoop, List.getD_cons_succ]
      exact ih k _ (by omega)

theorem renderLoop_volume (al ah : ℝ) (n : ℕ) (m : Private) :
    (renderLoop al ah n m).2.volume = m.volume :=
  (renderLoop_frame al ah n m).2.1

/-- The sample computed in a state whose phases have the sines `s1`, `s2`, for
two active tones and a volume `V` in `[0, 16383]`. -/
theorem sampleValue_two_tones (al ah : ℝ) (m : Private) (hl : al ≠ 0) (hh : ah ≠ 0)
    (hV0 : 0 ≤ m.volume) (hV : m.volume ≤ 16383) :
    |((toInt16 (sampleValue al ah m) : ℤ) : ℝ)
        - (m.volume : ℝ) * (Real.sin m.phase_lo + Real.sin m.phase_hi)| ≤ 2
    ∧ |((toInt16 (sampleValue al ah m) : ℤ) : ℝ)| ≤ 2 * (m.volume : ℝ) := by
  have hVr : (0 : ℝ) ≤ (m.volume : ℝ) := by exact_mod_cast hV0
  have hVr2 : (m.volume : ℝ) ≤ 16383 := by exact_mod_cast hV
  set y1 := Real.sin m.phase_lo * (m.volume : ℝ) with hy1
  set y2 := Real.sin m.phase_hi * (m.volume : ℝ) with hy2
  have hv : sampleValue al ah m = truncToInt ((truncToInt y1 : ℝ) + y2) := by
    unfold sampleValue
    simp [hl, hh, hy1, hy2]
  have by1 : |y1| ≤ (m.volume : ℝ) := by
    rw [hy1, abs_mul, abs_of_nonneg hVr]
    have := Real.abs_sin_le_one m.phase_lo
    nlinarith
  have by2 : |y2| ≤ (m.volume : ℝ) := by
    rw [hy2, abs_mul, abs_of_nonneg hVr]
    have := Real.abs_sin_le_one m.phase_hi
    nlinarith
  have e1 := truncToInt_err y1
  have e2 := truncToInt_err ((truncToInt y1 : ℝ) + y2)
  have a1 := truncToInt_abs_le y1
  have a2 := truncToInt_abs_le ((truncToInt y1 : ℝ) + y2)
  have hsum : |(truncToInt y1 : ℝ) + y2| ≤ 2 * (m.volume : ℝ) := by
    calc |(truncToInt y1 : ℝ) + y2| ≤ |(truncToInt y1 : ℝ)| + |y2| := abs_add _ _
      _ ≤ 2 * (m.volume : ℝ) := by linarith
  have habs : |((sampleValue al ah m : ℤ) : ℝ)| ≤ 2 * (m.volume : ℝ) := by
    rw [hv]; linarith
  have hrange : -32768 ≤ sampleValue al ah m ∧ sampleValue al ah m ≤ 32767 := by
    have h := abs_le.mp habs
    constructor
    · have : (-32768 : ℝ) ≤ ((sampleValue al ah m : ℤ) : ℝ) := by linarith [h.1]
      exact_mod_cast this
    · have : ((sampleValue al ah m : ℤ) : ℝ) ≤ 32767 := by linarith [h.2]
      exact_mod_cast this
  rw [toInt16_of_range _ hrange.1 hrange.2]
  refine ⟨?_, habs⟩
  rw [hv]
  have e : (truncToInt ((truncToInt y1 : ℝ) + y2) : ℝ)
      - (m.volume : ℝ) * (Real.sin m.phase_lo + Real.sin m.phase_hi) =
      ((truncToInt ((truncToInt y1 : ℝ) + y2) : ℝ) - ((truncToInt y1 : ℝ) + y2))
        + ((truncToInt y1 : ℝ) - y1) := by
    rw [hy1, hy2]; ring
  rw [e]
  calc _ ≤ |(truncToInt ((truncToInt y1 : ℝ) + y2) : ℝ) - ((truncToInt y1 : ℝ) + y2)|
        + |(truncToInt y1 : ℝ) - y1| := abs_add _ _
    _ ≤ 2 := by linarith

/-! ## End-to-end scenario: levels -/

theorem scenarioStart_fields (V : ℤ) :
    (scenarioStart V).volume = V ∧ (scenarioStart V).sample_fq = 8000
    ∧ (scenarioStart V).tone_fq_lo = 770 ∧ (scenarioStart V).tone_fq_hi = 1336
    ∧ (scenarioStart V).phase_lo = 0 ∧ (scenarioStart V).phase_hi = 0 :=
  ⟨rfl, rfl, rfl, rfl, rfl, rfl⟩

theorem scenarioChunk_eq (V : ℤ) :
    scenarioChunk V =
      (renderLoop (Real.pi * 770 / 4000) (Real.pi * 1336 / 4000) 160 (scenarioStart V)).1 := by
  have h1 : PI2 * (((scenarioStart V).tone_fq_lo : ℤ) : ℝ) / (((scenarioStart V).sample_fq : ℤ) : ℝ)
      = Real.pi * 770 / 4000 := by
    rw [(scenarioStart_fields V).2.2.1, (scenarioStart_fields V).2.1]
    unfold PI2; push_cast; ring
  have h2 : PI2 * (((scenarioStart V).tone_fq_hi : ℤ) : ℝ) / (((scenarioStart V).sample_fq : ℤ) : ℝ)
      = Real.pi * 1336 / 4000 := by
    rw [(scenarioStart_fields V).2.2.2.1, (scenarioStart_fields V).2.1]
    unfold PI2; push_cast; ring
  unfold scenarioChunk render
  simp only [h1, h2]

theorem scenarioChunk_length (V : ℤ) : (scenarioChunk V).length = 160 :=
  renderLoop_length _ _ 160 _

/-- Each sample of the scenario chunk is within 2 of the ideal two-tone
signal and at most `2 * V` in absolute value. -/
theorem scenarioChunk_sample (V : ℤ) (k : ℕ) (hV0 : 0 ≤ V) (hV : V ≤ 16383) (hk : k < 160) :
    |(((scenarioChunk V).getD k 0 : ℤ) : ℝ)
        - (V : ℝ) * (Real.sin ((k : ℝ) * (Real.pi * 770 / 4000))
          + Real.sin ((k : ℝ) * (Real.pi * 1336 / 4000)))| ≤ 2
    ∧ |(((scenarioChunk V).getD k 0 : ℤ) : ℝ)| ≤ 2 * (V : ℝ) := by
  have hpi := Real.pi_pos
  rw [scenarioChunk_eq, renderLoop_getD _ _ 160 k _ hk]
  set mk := (renderLoop (Real.pi * 770 / 4000) (Real.pi * 1336 / 4000) k (scenarioStart V)).2
    with hmk
  have hvol : mk.volume = V := by
    rw [hmk, renderLoop_volume]; rfl
  obtain ⟨j1, j2, hp1, hp2⟩ :=
    renderLoop_phase (Real.pi * 770 / 4000) (Real.pi * 1336 / 4000) k (scenarioStart V)
  rw [← hmk, (scenarioStart_fields V).2.2.2.2.1, zero_add] at hp1
  rw [← hmk, (scenarioStart_fields V).2.2.2.2.2, zero_add] at hp2
  have hs1 : Real.sin mk.phase_lo = Real.sin ((k : ℝ) * (Real.pi * 770 / 4000)) := by
    rw [hp1, Real.sin_sub_nat_mul_two_pi]
  have hs2 : Real.sin mk.phase_hi = Real.sin ((k : ℝ) * (Real.pi * 1336 / 4000)) := by
    rw [hp2, Real.sin_sub_nat_mul_two_pi]
  have h := sampleValue_two_tones (Real.pi * 770 / 4000) (Real.pi * 1336 / 4000) mk
    (by positivity) (by positivity) (by rw [hvol]; exact hV0) (by rw [hvol]; exact hV)
  rw [hvol, hs1, hs2] at h
  exact h

theorem scenarioChunk_head (V : ℤ) : (scenarioChunk V).getD 0 0 = 0 := by
  have hpi := Real.pi_pos
  rw [scenarioChunk_eq, renderLoop_getD _ _ 160 0 _ (by norm_num)]
  have h1 : (Real.pi * 770 / 4000 : ℝ) ≠ 0 := by positivity
  have h2 : (Real.pi * 1336 / 4000 : ℝ) ≠ 0 := by positivity
  simp [renderLoop, sampleValue, h1, h2, (scenarioStart_fields V).2.2.2.2.1,
    (scenarioStart_fields V).2.2.2.2.2, truncToInt_zero, toInt16]

theorem scenarioLevels_eq (V : ℤ) (i : Fin 8) :
    scenarioLevels V i = 2 / 160 *
      Complex.abs (∑ k in Finset.range 160, (((scenarioChunk V).getD k 0 : ℤ) : ℂ) *
        Complex.exp (((-(Real.pi * (dtmf_fq i : ℝ) / 4000) : ℝ) : ℂ) * Complex.I) ^ k) := by
  have hfq : (render 160 (scenarioStart V)).2.sample_fq = 8000 := by
    rw [render_sample_fq]; rfl
  have h := goertzel_eq_binSum (scenarioChunk V) 8000 (dtmf_fq i)
  rw [scenarioChunk_length, binSum_eq] at h
  unfold scenarioLevels detectDTMF
  simp only [hfq]
  rw [h]
  have e : -(((PI2 * ((dtmf_fq i : ℤ) : ℝ) / ((8000 : ℤ) : ℝ) : ℝ) : ℂ) * Complex.I) =
      ((-(Real.pi * (dtmf_fq i : ℝ) / 4000) : ℝ) : ℂ) * Complex.I := by
    unfold PI2; push_cast; ring
  rw [e]
  norm_num

/-- Every level of the scenario is below `4 * V`. -/
theorem scenarioLevels_upper (V : ℤ) (i : Fin 8) (hV1 : 1 ≤ V) (hV : V ≤ 16383) :
    scenarioLevels V i < 4 * (V : ℝ) := by
  have hVr : (1 : ℝ) ≤ (V : ℝ) := by exact_mod_cast hV1
  rw [scenarioLevels_eq]
  set z := Complex.exp (((-(Real.pi * (dtmf_fq i : ℝ) / 4000) : ℝ) : ℂ) * Complex.I) with hz
  have hzk : ∀ k : ℕ, Complex.abs (z ^ k) = 1 := by
    intro k
    rw [map_pow, hz, Complex.abs_exp_ofReal_mul_I, one_pow]
  have hsum : Complex.abs (∑ k in Finset.range 160,
      (((scenarioChunk V).getD k 0 : ℤ) : ℂ) * z ^ k) ≤ 159 * (2 * (V : ℝ)) := by
    rw [Finset.sum_range_succ']
    rw [scenarioChunk_head]
    simp only [Int.cast_zero, zero_mul, add_zero]
    calc Complex.abs (∑ k in Finset.range 159,
          (((scenarioChunk V).getD (k + 1) 0 : ℤ) : ℂ) * z ^ (k + 1))
        ≤ ∑ k in Finset.range 159,
          Complex.abs ((((scenarioChunk V).getD (k + 1) 0 : ℤ) : ℂ) * z ^ (k + 1)) :=
          Complex.abs.sum_le _ _
      _ ≤ ∑ _k in Finset.range 159, (2 * (V : ℝ)) := by
          refine Finset.sum_le_sum (fun k hk => ?_)
          rw [map_mul, hzk, mul_one]
          have h := (scenarioChunk_sample V (k + 1) (by omega) hV
            (by have := Finset.mem_range.mp hk; omega)).2
          rw [← Complex.abs_ofReal] at h
          simpa using h
      _ = 159 * (2 * (V : ℝ)) := by simp
  nlinarith

/-- For `V >= 10` the levels of the two tones of the scenario exceed `V / 2`. -/
theorem scenarioLevels_lower (V : ℤ) (hV10 : 10 ≤ V) (hV : V ≤ 16383) :
    0.5 * (V : ℝ) < scenarioLevels V 1 ∧ 0.5 * (V : ℝ) < scenarioLevels V 5 := by
  have hVr : (10 : ℝ) ≤ (V : ℝ) := by exact_mod_cast hV10
  have hV0 : (0 : ℝ) ≤ (V : ℝ) := by linarith
  have hf1 : ((dtmf_fq 1 : ℤ) : ℝ) = 770 := by
    rw [show dtmf_fq 1 = 770 from rfl]; norm_num
  have hf5 : ((dtmf_fq 5 : ℤ) : ℝ) = 1336 := by
    rw [show dtmf_fq 5 = 1336 from rfl]; norm_num
  constructor
  · rw [scenarioLevels_eq, hf1]
    have h := bin_lower (V : ℝ) 770 1336 (fun k => (scenarioChunk V).getD k 0) 160 hV0
      (by norm_num) (by norm_num) (by norm_num) (by norm_num) (by norm_num)
      (fun k hk => (scenarioChunk_sample V k (by omega) hV hk).1)
    have habs : |(1336 : ℝ) - 770| = 566 := by norm_num [abs_of_pos]
    rw [habs] at h
    norm_num at h ⊢
    linarith
  · rw [scenarioLevels_eq, hf5]
    have h := bin_lower (V : ℝ) 1336 770 (fun k => (scenarioChunk V).getD k 0) 160 hV0
      (by norm_num) (by norm_num) (by norm_num) (by norm_num) (by norm_num)
      (fun k hk => by
        have := (scenarioChunk_sample V k (by omega) hV hk).1
        rwa [add_comm] at this)
    have habs : |(770 : ℝ) - 1336| = 566 := by norm_num [abs_of_neg]
    rw [habs] at h
    norm_num at h ⊢
    linarith

/-- C3 (as the code behaves): in the end-to-end scenario (phases 0, sample rate
8000, `setTone('5')`, one chunk of 160 samples, `detectDTMF` over it), for every
volume `V` with `1 <= V <= 16383` the six levels other than those of 770 Hz and
1336 Hz are below `0.05*V*80`, and so are the levels of 770 Hz and 1336 Hz
themselves (the detector divides by `N/2 = 80`); for `10 <= V` the levels of
770 Hz and 1336 Hz each exceed `0.5*V`. -/
theorem scenario_levels (V : ℤ) (hV1 : 1 ≤ V) (hV : V ≤ 16383) :
    (∀ i : Fin 8, i ≠ 1 → i ≠ 5 → scenarioLevels V i < 0.05 * (V : ℝ) * 80)
    ∧ (scenarioLevels V 1 < 0.05 * (V : ℝ) * 80 ∧ scenarioLevels V 5 < 0.05 * (V : ℝ) * 80)
    ∧ (10 ≤ V → 0.5 * (V : ℝ) < scenarioLevels V 1 ∧ 0.5 * (V : ℝ) < scenarioLevels V 5) := by
  have hup : ∀ i : Fin 8, scenarioLevels V i < 0.05 * (V : ℝ) * 80 := by
    intro i
    have h := scenarioLevels_upper V i hV1 hV
    have e : 0.05 * (V : ℝ) * 80 = 4 * (V : ℝ) := by ring
    rw [e]; exact h
  exact ⟨fun i _ _ => hup i, ⟨hup 1, hup 5⟩, fun h10 => scenarioLevels_lower V h10 hV⟩

theorem scenario_levels_witness :
    (1 : ℤ) ≤ 5000 ∧ (5000 : ℤ) ≤ 16383
    ∧ 0.5 * (((5000 : ℤ) : ℝ)) < scenarioLevels 5000 1
    ∧ 0.5 * (((5000 : ℤ) : ℝ)) < scenarioLevels 5000 5
    ∧ scenarioLevels 5000 0 < 0.05 * (((5000 : ℤ) : ℝ)) * 80 :=
  have h := scenario_levels 5000 (by decide) (by decide)
  ⟨by decide, by decide, (h.2.2 (by decide)).1, (h.2.2 (by decide)).2,
    h.1 0 (by decide) (by decide)⟩

/-- C3 fails as stated: at the default volume `V = 5000` the level of 770 Hz
(index 1) does not exceed `0.5*V*80 = 200000`; it is below `4*V = 20000`. -/
theorem scenario_high_threshold_fails :
    (1 : ℤ) ≤ 5000 ∧ (5000 : ℤ) ≤ 16383
    ∧ scenarioLevels 5000 1 < 4 * 5000
    ∧ ¬ (0.5 * (((5000 : ℤ) : ℝ)) * 80 < scenarioLevels 5000 1) := by
  have h := scenarioLevels_upper 5000 1 (by decide) (by decide)
  have e : (((5000 : ℤ) : ℝ)) = 5000 := by norm_num
  rw [e] at h ⊢
  refine ⟨by decide, by decide, h, ?_⟩
  intro hc
  linarith

end QtDTMF
